import Mathlib

/-!
Verification of the svg_quilter pipeline specification against the code.

The development shallowly embeds the pure geometric-combinatorial core of the
repository (`utils.py`, `geometry.py`, `grouping.py`, `seam_allowance.py`,
`layout.py`) over exact rational coordinates.  A shapely `Polygon` is modelled
by its exterior coordinate ring, a `List (ℚ × ℚ)` whose last point repeats the
first.  Operations the code takes from the geometry kernel (shapely / pyclipper:
`union`, `convex_hull`, `intersects`, `buffer`, `rotate`) are passed in as
function parameters, mirroring the spec's §4.0 stance that the kernel is an
assumed external capability; everything the repository itself implements is
translated directly from the source.
-/

deriving instance DecidableEq for Except

set_option maxRecDepth 8000

namespace SvgQuilter

abbrev Point := ℚ × ℚ

/-- The exterior coordinate ring of a shapely polygon (closing point included,
as `poly.exterior.coords` returns it). -/
abbrev Poly := List Point

/-- Twice the signed area of the triangle `a b c`:
`(bx - ax) * (cy - ay) - (by - ay) * (cx - ax)`, the cross-product expression
used throughout the code base. -/
def cross2 (a b c : Point) : ℚ :=
  (b.1 - a.1) * (c.2 - a.2) - (b.2 - a.2) * (c.1 - a.1)

/-- Twice the signed shoelace area of a coordinate ring, summing
`x_i * y_{i+1} - x_{i+1} * y_i` over consecutive pairs.  Models the kernel's
`Polygon.area` (up to the factor 2 and sign handled by `areaRing`). -/
def shoelace2 (r : List Point) : ℚ :=
  ((r.zip r.tail).map (fun e => e.1.1 * e.2.2 - e.2.1 * e.1.2)).sum

/-- Absolute polygon area of a ring: models shapely's `Polygon.area`. -/
def areaRing (r : List Point) : ℚ := |shoelace2 r| / 2

/-- Errors a shapely call in the embedded code can raise. -/
inductive GeomErr where
  | indexError
  | valueError
deriving DecidableEq, Repr

/-- The shapely `Polygon(coords)` constructor on a coordinate list: the ring is
closed by repeating the first point when needed; an empty list yields the empty
polygon; a nonempty ring with fewer than 4 closed coordinates raises
`ValueError` (a linear ring needs at least 4 coordinates). -/
def mkPolygon (coords : List Point) : Except GeomErr Poly :=
  if coords.isEmpty then .ok []
  else
    let a := coords.headD (0, 0)
    let ring := if coords.getLast? = some a then coords else coords ++ [a]
    if 4 ≤ ring.length then .ok ring else .error .valueError

/-- The area-based collinearity test defined inside
`utils.remove_collinear_points` (utils.py lines 206-211):
`a`, `b`, `c` are collinear when `|cross| < tol`. -/
def rcpCollinear (tol : ℚ) (a b c : Point) : Bool :=
  |cross2 a b c| < tol

/-- The keep test of the filtering pass of `remove_collinear_points`
(utils.py lines 213-219): vertex `i` survives unless it is collinear with its
two original cyclic neighbours. -/
def rcpKeep (tol : ℚ) (coords : List Point) (p : ℕ × Point) : Bool :=
  let n := coords.length
  !rcpCollinear tol (coords.getD ((p.1 + n - 1) % n) (0, 0))
    (coords.getD p.1 (0, 0)) (coords.getD ((p.1 + 1) % n) (0, 0))

/-- The `result` list built by the filtering pass of
`remove_collinear_points`. -/
def rcpResult (tol : ℚ) (coords : List Point) : List Point :=
  (coords.enum.filter (rcpKeep tol coords)).map Prod.snd

/-- `utils.remove_collinear_points` (utils.py lines 188-222) acting on the
exterior ring of its argument.  The duplicate closing point is dropped, every
vertex collinear with its two original cyclic neighbours is removed in one
pass, the closing point is re-appended (`result.append(result[0])`, an
`IndexError` when everything was removed) and the result is rebuilt with the
`Polygon` constructor. -/
def removeCollinearPoints (ring : List Point) (tol : ℚ := 1/100) :
    Except GeomErr Poly :=
  let closed := decide (1 < ring.length) && decide (ring.head? = ring.getLast?)
  let coords := if closed then ring.dropLast else ring
  if coords.length ≤ 3 then mkPolygon coords
  else
    let result := rcpResult tol coords
    if closed then
      match result with
      | [] => .error .indexError
      | r0 :: _ => mkPolygon (result ++ [r0])
    else mkPolygon result

/-- The open part of a ring, exactly as `remove_collinear_points` computes it:
the closing point is dropped when the ring is closed. -/
def openRing (ring : List Point) : List Point :=
  if 1 < ring.length ∧ ring.head? = ring.getLast? then ring.dropLast else ring

/-- Stable insertion into a sorted list: `x` goes in front of the first element
that is not strictly smaller, which is how Python's stable `sorted` orders
ties. -/
def sortInsert (lt : α → α → Bool) (x : α) : List α → List α
  | [] => [x]
  | y :: ys => if lt y x then y :: sortInsert lt x ys else x :: y :: ys

/-- Stable sort by a strict comparison, modelling Python's `sorted`. -/
def pySorted (lt : α → α → Bool) (l : List α) : List α :=
  l.foldr (sortInsert lt) []

/-- Lexicographic comparison on points, used to order input points for the
convex-hull computation. -/
def ptLt (p q : Point) : Bool :=
  p.1 < q.1 || (p.1 == q.1 && p.2 < q.2)

/-- One step of Andrew's monotone-chain construction: pop the chain while the
last two kept points and the new point fail to make a strict left turn. -/
def chainStep : List Point → Point → List Point
  | b :: a :: rest, p =>
    if cross2 a b p ≤ 0 then chainStep (a :: rest) p else p :: b :: a :: rest
  | acc, p => p :: acc

/-- Executable convex hull over ℚ (Andrew's monotone chain), modelling the
kernel's `convex_hull` for concrete instantiations.  Returns the hull as a
closed counterclockwise ring; inputs with fewer than 3 distinct points are
returned deduplicated and closed. -/
def convexHullQ (ring : List Point) : Poly :=
  let pts := (pySorted ptLt ring).dedup
  if pts.length ≤ 2 then
    match pts with
    | [] => []
    | a :: rest => (a :: rest) ++ [a]
  else
    let lower := pts.foldl chainStep []
    let upper := pts.reverse.foldl chainStep []
    (lower.reverse.dropLast ++ upper.reverse.dropLast) ++ [pts.headI]

/-- Modelled from the spec: `grouping.py` imports `collinear` from `utils`,
but `src/utils.py` defines no module-level `collinear`; only its callers are in
`src/`.  Spec §4.1/§4.2 give the test: points are collinear when the absolute
cross product `|cross(b - a, c - a)|` is below the tolerance. -/
def collinear (a b c : Point) (tol : ℚ) : Bool :=
  |cross2 a b c| < tol

/-! ### geometry.py: the face loop of `lines_to_polygons`

`lines_to_polygons` (geometry.py lines 11-36) merges the input segments and
polygonizes them through the kernel; the embedded part is the per-face loop
that decides which faces are kept.  Each face ring with fewer than 4
coordinates is skipped (`if len(coords) < 4: continue`); otherwise the
duplicate closing point is dropped.  No area test of any kind occurs.  (The
code then calls `remove_collinear_points` on the plain rounded coordinate
list, which in Python raises `AttributeError` because that function expects a
`Polygon`; the loop below covers the part up to that call.) -/

/-- The keep/normalize decision of the `lines_to_polygons` face loop
(geometry.py lines 30-34). -/
def facePreprocess (coords : List Point) : Option (List Point) :=
  if coords.length < 4 then none
  else some (if coords.head? = coords.getLast? then coords.dropLast else coords)

/-- The faces of `lines_to_polygons` that survive its only filter, applied to
the face rings the kernel's `polygonize` produced. -/
def linesToPolygonsFaces (faces : List (List Point)) : List (List Point) :=
  faces.filterMap facePreprocess

/-! ### grouping.py -/

/-- A seam: a 2-point `LineString` as produced by `svg_parser.parse_svg`. -/
abbrev Seg := Point × Point

/-- The geometry-kernel operations `grouping.py` and `seam_allowance.py` call
on shapely objects (spec §4.0 treats these as an assumed external capability).
Everything else is embedded concretely from the source. -/
structure Kernel where
  polyIntersects : Poly → Poly → Bool
  segIntersects : Seg → Seg → Bool
  union : Poly → Poly → Poly
  unionAll : List Poly → Poly
  convexHull : Poly → Poly

/-- `grouping.polygon_area` (lines 18-27): `abs(poly.area)`. -/
def polygonArea (poly : Poly) : ℚ := |areaRing poly|

/-- `grouping.coords_equal` (lines 62-64): `np.allclose(a, b, atol=tol)`,
which compares componentwise with `|x - y| <= atol + rtol * |y|` at numpy's
default `rtol = 1e-5`. -/
def coordsEqual (a b : Point) (tol : ℚ) : Bool :=
  decide (|a.1 - b.1| ≤ tol + (1/100000) * |b.1|) &&
  decide (|a.2 - b.2| ≤ tol + (1/100000) * |b.2|)

/-- The consecutive-pair edge list of a ring:
`zip(coords[:-1], coords[1:])`. -/
def ringEdges (ring : List Point) : List (Point × Point) :=
  ring.zip ring.tail

/-- `grouping.find_exact_full_shared_edge` (lines 67-85): count coinciding
(possibly reversed) edge pairs of the two exterior rings and require exactly
one match. -/
def findExactFullSharedEdge (poly1 poly2 : Poly) (tol : ℚ := 1/1000000) : Bool :=
  let nMatches := ((ringEdges poly1).product (ringEdges poly2)).countP
    (fun pr =>
      let a1 := pr.1.1; let a2 := pr.1.2; let b1 := pr.2.1; let b2 := pr.2.2
      (coordsEqual a1 b2 tol && coordsEqual a2 b1 tol) ||
      (coordsEqual a1 b1 tol && coordsEqual a2 b2 tol))
  nMatches == 1

/-- `grouping.is_concave` (lines 88-93), with the kernel's `convex_hull`
passed in.  (In Python a zero-area polygon would raise `ZeroDivisionError`;
over ℚ the division yields 0 — the embedding is only used on shapes whose
area the run keeps nonzero.) -/
def isConcave (hull : Poly → Poly) (polygon : Poly) (tol : ℚ := 1/100) : Bool :=
  let convex := hull polygon
  if areaRing convex < areaRing polygon then false
  else decide (areaRing convex / areaRing polygon - 1 > tol)

/-- `grouping.build_polygon_adjacency` (lines 43-59): `j` is adjacent to `i`
iff `i ≠ j` and the pairwise `intersects` test (run once per unordered pair,
with the lower index first) holds.  Neighbour sets are returned in ascending
order. -/
def buildPolygonAdjacency (K : Kernel) (polygons : List Poly) (i : ℕ) :
    List ℕ :=
  (List.range polygons.length).filter (fun j =>
    if i < j then K.polyIntersects (polygons.getD i []) (polygons.getD j [])
    else if j < i then K.polyIntersects (polygons.getD j []) (polygons.getD i [])
    else false)

/-- `grouping.seam_is_collinear_with_bbox_edge` (lines 143-170): both seam
endpoints are collinear, within `tol`, with some edge of the bounding box. -/
def seamIsCollinearWithBboxEdge (seam : Seg) (bbox : Poly) (tol : ℚ := 10) :
    Bool :=
  (ringEdges bbox).any (fun e =>
    collinear e.1 e.2 seam.1 tol && collinear e.1 e.2 seam.2 tol)

/-! `classify_seams` (grouping.py lines 173-218).  The Python dict
`seam_orders` is modelled as a function `ℕ → Option ℕ`; its keys are always
indices below `len(seams)`, so `len(seam_orders)` is the number of classified
indices in `range n` and iteration over `items()` (used only for counting and
existence tests) is iteration over `range n` restricted to classified
indices. -/

/-- `len(seam_orders)` for a mapping over `n` seams. -/
def mapSize (n : ℕ) (m : ℕ → Option ℕ) : ℕ :=
  ((List.range n).filter (fun i => (m i).isSome)).length

/-- `sum(seam.intersects(seams[j]) for j, order in seam_orders.items() if
order == 0)`: the number of order-0 seams the seam intersects. -/
def crossEdgeCount (K : Kernel) (seams : List Seg) (m : ℕ → Option ℕ)
    (s : Seg) : ℕ :=
  ((List.range seams.length).filter (fun j =>
    decide (m j = some 0) && K.segIntersects s (seams.getD j ((0,0),(0,0))))).length

/-- Phase 0 of `classify_seams` (lines 187-190): order 0 for seams collinear
with a bounding-box edge. -/
def classifyPhase0 (seams : List Seg) (bbox : Poly) (tol : ℚ) :
    ℕ → Option ℕ := fun i =>
  if i < seams.length ∧
      seamIsCollinearWithBboxEdge (seams.getD i ((0,0),(0,0))) bbox tol then
    some 0
  else none

/-- Phase 1 of `classify_seams` (lines 192-200): order 1 for unclassified
seams that intersect exactly two order-0 seams. -/
def classifyPhase1 (K : Kernel) (seams : List Seg) (m : ℕ → Option ℕ) :
    ℕ → Option ℕ := fun i =>
  match m i with
  | some k => some k
  | none =>
    if i < seams.length ∧
        crossEdgeCount K seams m (seams.getD i ((0,0),(0,0))) = 2 then
      some 1
    else none

/-- One pass of the higher-order loop of `classify_seams` (lines 205-214):
unclassified seams intersecting any order-`(k-1)` seam get order `k`. -/
def classifyPass (K : Kernel) (seams : List Seg) (m : ℕ → Option ℕ) (k : ℕ) :
    ℕ → Option ℕ := fun i =>
  match m i with
  | some k' => some k'
  | none =>
    if i < seams.length ∧
        ((List.range seams.length).any (fun j =>
          decide (m j = some (k - 1)) &&
          K.segIntersects (seams.getD i ((0,0),(0,0)))
            (seams.getD j ((0,0),(0,0))))) then
      some k
    else none

/-- The `while` loop of `classify_seams` (lines 203-217): passes run at
`current_order = 2, 3, ...` while seams remain unclassified, and the loop
breaks once the incremented order exceeds 10, so passes happen at orders 2
through 10 only; the structural fuel (9 when called) is never exhausted
before the `k + 1 > 10` guard fires.  The second component counts executed
rounds. -/
def classifyAux (K : Kernel) (seams : List Seg) :
    ℕ → (ℕ → Option ℕ) → ℕ → ℕ → ((ℕ → Option ℕ) × ℕ)
  | 0, m, _, rounds => (m, rounds)
  | fuel + 1, m, k, rounds =>
    if mapSize seams.length m < seams.length then
      let m' := classifyPass K seams m k
      if 10 < k + 1 then (m', rounds + 1)
      else classifyAux K seams fuel m' (k + 1) (rounds + 1)
    else (m, rounds)

/-- `grouping.classify_seams` (lines 173-218) together with the number of
higher-order rounds its capped loop executed. -/
def classifySeamsWithRounds (K : Kernel) (seams : List Seg) (bbox : Poly)
    (tol : ℚ := 10) : (ℕ → Option ℕ) × ℕ :=
  let m0 := classifyPhase0 seams bbox tol
  let m1 := classifyPhase1 K seams m0
  classifyAux K seams 9 m1 2 0

/-- `grouping.classify_seams`: the returned seam-order mapping. -/
def classifySeams (K : Kernel) (seams : List Seg) (bbox : Poly)
    (tol : ℚ := 10) : ℕ → Option ℕ :=
  (classifySeamsWithRounds K seams bbox tol).1

/-- `grouping.polygon_max_seam_order` (lines 221-254): the highest order among
seams both of whose endpoints are collinear with some polygon edge (in either
direction), or -1.  Seams are always 2-point `LineString`s here, so the
`len(sc) == 2` guard in the source always passes. -/
def polygonMaxSeamOrder (poly : Poly) (seams : List Seg)
    (seamOrders : ℕ → Option ℕ) (tol : ℚ := 10) : ℤ :=
  (ringEdges poly).foldl (fun maxOrder e =>
    (List.range seams.length).foldl (fun mo i =>
      let s := seams.getD i ((0,0),(0,0))
      if (collinear e.1 e.2 s.1 tol && collinear e.1 e.2 s.2 tol) ||
          (collinear s.1 s.2 e.1 tol && collinear s.1 s.2 e.2 tol) then
        max mo ((seamOrders i).elim (-1) (fun k => (k : ℤ)))
      else mo) maxOrder) (-1)

/-- How a run of the grouping loops can fail: a propagated shapely error
(`remove_collinear_points` raising), the structural fuel running out (proved
unreachable), or Python's `max()`/`min()` on an empty sequence (likewise
unreachable). -/
inductive GroupingErr where
  | geom (e : GeomErr)
  | outOfFuel
  | emptySeq
deriving DecidableEq, Repr

/-- The state `grow_group_from_seed` returns, plus two instrumentation fields
that record intermediate values without influencing the control flow:
`trace` lists every value `current_shape` takes (the seed first), and
`accepted` lists every merged union that passed the concavity check. -/
structure GrowResult where
  groupIdxs : List ℕ
  currentShape : Poly
  trace : List Poly
  accepted : List Poly
deriving DecidableEq, Repr

/-- The candidate collection of `grow_group_from_seed` (lines 120-124):
neighbours of any group member that are neither grouped nor already listed,
in discovery order. -/
def collectCandidates (adjacency : ℕ → List ℕ) (groupIdxs : List ℕ)
    (grouped : Finset ℕ) : List ℕ :=
  groupIdxs.foldl (fun acc idx =>
    (adjacency idx).foldl (fun acc2 nb =>
      if nb ∉ grouped ∧ nb ∉ acc2 then acc2 ++ [nb] else acc2) acc) []

/-- The candidate scan of `grow_group_from_seed` (lines 126-137): the first
candidate that shares exactly one full edge with `current_shape` and whose
union with it is not concave is selected, together with that union. -/
def scanCandidates (K : Kernel) (polygons : List Poly) (tol : ℚ)
    (cur : Poly) : List ℕ → Option (ℕ × Poly)
  | [] => none
  | c :: rest =>
    let neighborPoly := polygons.getD c []
    if findExactFullSharedEdge neighborPoly cur tol then
      let merged := K.union cur neighborPoly
      if isConcave K.convexHull merged (1/100) then
        scanCandidates K polygons tol cur rest
      else some (c, merged)
    else scanCandidates K polygons tol cur rest

/-- The `while True` loop of `grow_group_from_seed` (lines 119-139).  Each
successful iteration merges one new neighbour and replaces `current_shape`
with `remove_collinear_points(merged.convex_hull)`; the loop ends when no
candidate is accepted.  Fuel `len(polygons) + 1` is always sufficient
(every iteration adds a fresh index below `len(polygons)`). -/
def growAux (K : Kernel) (polygons : List Poly) (adjacency : ℕ → List ℕ)
    (tol : ℚ) : ℕ → List ℕ → Finset ℕ → Poly → List Poly → List Poly →
    Except GroupingErr GrowResult
  | 0, _, _, _, _, _ => .error .outOfFuel
  | fuel + 1, groupIdxs, grouped, cur, trace, accepted =>
    let candidates := collectCandidates adjacency groupIdxs grouped
    match scanCandidates K polygons tol cur candidates with
    | none => .ok ⟨groupIdxs, cur, trace, accepted⟩
    | some (c, merged) =>
      match removeCollinearPoints (K.convexHull merged) with
      | .error e => .error (.geom e)
      | .ok newShape =>
        growAux K polygons adjacency tol fuel (groupIdxs ++ [c])
          (insert c grouped) newShape (trace ++ [newShape])
          (accepted ++ [merged])

/-- `grouping.grow_group_from_seed` (lines 96-140). -/
def growGroupFromSeed (K : Kernel) (seedIdx : ℕ) (polygons : List Poly)
    (adjacency : ℕ → List ℕ) (alreadyGrouped : Finset ℕ)
    (tol : ℚ := 1/100) : Except GroupingErr GrowResult :=
  let seedPoly := polygons.getD seedIdx []
  growAux K polygons adjacency tol (polygons.length + 1) [seedIdx]
    (insert seedIdx alreadyGrouped) seedPoly [seedPoly] []

/-- Python's `max(...)` over a nonempty list (`None` models the `ValueError`
an empty sequence raises). -/
def pyMax (l : List ℤ) : Option ℤ :=
  match l with
  | [] => none
  | x :: xs => some (xs.foldl max x)

/-- Python's `min(iterable, key=...)`: the first element with minimal key
(`None` models the empty-sequence `ValueError`). -/
def pyMinBy (key : α → ℚ) (l : List α) : Option α :=
  match l with
  | [] => none
  | x :: xs => some (xs.foldl (fun b y => if key y < key b then y else b) x)

/-- The seed-selection-and-growth loop of `group_polygons` (lines 275-285):
while indices remain ungrouped, pick as seed the smallest-area polygon among
the ungrouped ones of maximal seam order, grow a group from it and record it.
Fuel `len(polygons) + 1` is always sufficient (every round grows
`already_grouped` by at least the seed). -/
def groupLoop (K : Kernel) (polygons : List Poly) (adjacency : ℕ → List ℕ)
    (polygonOrders : List ℤ) : ℕ → Finset ℕ → List (List ℕ) →
    Except GroupingErr (List (List ℕ))
  | 0, _, _ => .error .outOfFuel
  | fuel + 1, alreadyGrouped, groups =>
    let n := polygons.length
    if alreadyGrouped.card < n then
      let candidates := (List.range n).filter (fun i => i ∉ alreadyGrouped)
      match pyMax (candidates.map (fun i => polygonOrders.getD i (-1))) with
      | none => .error .emptySeq
      | some highestOrder =>
        let seedCandidates := candidates.filter
          (fun i => polygonOrders.getD i (-1) = highestOrder)
        match pyMinBy (fun idx => polygonArea (polygons.getD idx []))
            seedCandidates with
        | none => .error .emptySeq
        | some seed =>
          match growGroupFromSeed K seed polygons adjacency alreadyGrouped with
          | .error e => .error e
          | .ok res =>
            groupLoop K polygons adjacency polygonOrders fuel
              (alreadyGrouped ∪ res.groupIdxs.toFinset)
              (groups ++ [res.groupIdxs])
    else .ok groups

/-- `grouping.group_polygons` (lines 257-286): classify the seams against the
convex hull of the unioned polygons, rank each polygon by its maximal seam
order, then repeatedly grow groups from the chosen seeds. -/
def groupPolygons (K : Kernel) (polygons : List Poly) (lines : List Seg) :
    Except GroupingErr (List (List ℕ)) :=
  let boundingBox := K.convexHull (K.unionAll polygons)
  let seamOrders := classifySeams K lines boundingBox
  let polygonOrders := polygons.map
    (fun p => polygonMaxSeamOrder p lines seamOrders)
  let adjacency := buildPolygonAdjacency K polygons
  groupLoop K polygons adjacency polygonOrders (polygons.length + 1) ∅ []

/-! ### seam_allowance.py -/

/-- `seam_allowance.group_polygons_to_shape` (lines 14-27): the union of the
group members. -/
def groupPolygonsToShape (K : Kernel) (polygons : List Poly)
    (group : List ℕ) : Poly :=
  K.unionAll (group.map (fun idx => polygons.getD idx []))

/-- `seam_allowance.clean_and_buffer_group_shape` (lines 30-45): convex hull,
collinear-point reduction, then the kernel's outward mitre-join buffer. -/
def cleanAndBufferGroupShape (K : Kernel) (buffer : Poly → ℚ → Poly)
    (groupShape : Poly) (allowance : ℚ) : Except GeomErr Poly :=
  match removeCollinearPoints (K.convexHull groupShape) with
  | .error e => .error e
  | .ok simple => .ok (buffer simple allowance)

/-- The per-group loop of `seam_allowance.seam_allowance_polygons`
(lines 66-70); the result dict `{i: shape}` is modelled as the association
list in index order. -/
def seamAllowanceLoop (K : Kernel) (buffer : Poly → ℚ → Poly)
    (polygons : List Poly) (allowance : ℚ) :
    ℕ → List (List ℕ) → Except GeomErr (List (ℕ × Poly))
  | _, [] => .ok []
  | i, group :: rest =>
    match cleanAndBufferGroupShape K buffer
        (groupPolygonsToShape K polygons group) allowance with
    | .error e => .error e
    | .ok seamShape =>
      match seamAllowanceLoop K buffer polygons allowance (i + 1) rest with
      | .error e => .error e
      | .ok tailResult => .ok ((i, seamShape) :: tailResult)

/-- `seam_allowance.seam_allowance_polygons` (lines 48-71). -/
def seamAllowancePolygons (K : Kernel) (buffer : Poly → ℚ → Poly)
    (polygons : List Poly) (groups : List (List ℕ))
    (allowanceInInches : ℚ := 1/4) (svgUnitsPerInch : ℚ := 96) :
    Except GeomErr (List (ℕ × Poly)) :=
  seamAllowanceLoop K buffer polygons (allowanceInInches * svgUnitsPerInch)
    0 groups

/-! ### layout.py -/

/-- `layout.LayoutConfig` (lines 32-41). -/
structure LayoutConfig where
  page_width_in : ℚ
  page_height_in : ℚ
  margin_in : ℚ := 1/2
  margin_between : ℚ := 1/10
  svg_units_per_in : ℚ := 96
  allow_rotate : Bool := true
deriving Repr

/-- `layout.Placement` (lines 21-29). -/
structure Placement where
  group_idx : ℕ
  rotation : ℤ
  dx : ℚ
  dy : ℚ
  poly : Poly
deriving Repr, DecidableEq

/-- The printable-area rectangle built in `PageLayoutEngine.__init__`
(layout.py lines 139-149): `box(margin, margin, inner_width, inner_height)`,
returned as its (min corner, max corner) pair.  Note the source passes the
inner *dimensions* `(page - 2*margin) * units` directly as the box's maximum
coordinates. -/
def engineBox (config : LayoutConfig) : Point × Point :=
  let innerWidth := (config.page_width_in - 2 * config.margin_in) *
    config.svg_units_per_in
  let innerHeight := (config.page_height_in - 2 * config.margin_in) *
    config.svg_units_per_in
  let margin := config.margin_in * config.svg_units_per_in
  ((margin, margin), (innerWidth, innerHeight))

/-- `self.grow` from `PageLayoutEngine.__init__` (line 137). -/
def engineGrow (config : LayoutConfig) : ℚ :=
  (config.margin_between / 2) * config.svg_units_per_in

/-- The shapely / pyclipper operations the nesting engine calls
(spec §4.0 kernel; `_place_next` is kernel-bound end to end through
`MinkowskiSum`, so it is an oracle wholesale). -/
structure NestKernel where
  /-- `shapely_rotate(poly, angle, origin="centroid")`. -/
  rotate : Poly → ℤ → Poly
  /-- `shapely_rotate(poly, ang, origin="centroid").normalize()`. -/
  rotateNorm : Poly → ℤ → Poly
  /-- `poly.normalize()`. -/
  normalizePoly : Poly → Poly
  /-- `poly.buffer(d, join_style="mitre")`. -/
  bufferMitre : Poly → ℚ → Poly
  /-- `box.contains(shape.buffer(-tol))` for the printable-area box. -/
  containsEroded : Point × Point → Poly → Bool
  /-- `PageLayoutEngine._place_next` (layout.py lines 196-243). -/
  placeNext : ℕ → Poly → ℤ → List Placement → Option Placement

/-- The four bounds of a ring, `poly.bounds`:
`(min x, min y, max x, max y)`. -/
def boundsQuad : Poly → ℚ × ℚ × ℚ × ℚ
  | [] => (0, 0, 0, 0)
  | (x, y) :: rest =>
    (rest.foldl (fun b q => min b q.1) x,
     rest.foldl (fun b q => min b q.2) y,
     rest.foldl (fun b q => max b q.1) x,
     rest.foldl (fun b q => max b q.2) y)

/-- `shapely_translate(poly, xoff, yoff)` on a ring: concrete. -/
def translatePoly (p : Poly) (dx dy : ℚ) : Poly :=
  p.map (fun q => (q.1 + dx, q.2 + dy))

/-- `layout.minimal_bounding_box_rotation` (lines 60-73): among rotations
0°, 5°, ..., 175°, keep the first rotation minimizing the axis-aligned
bounding-box area. -/
def minimalBoundingBoxRotation (N : NestKernel) (poly : Poly) : Poly × ℤ :=
  let angles := (List.range 36).map (fun a => (5 * a : ℤ))
  let best := angles.foldl (fun st angle =>
    let rotated := N.rotate poly angle
    let b := boundsQuad rotated
    let area := (b.2.2.1 - b.1) * (b.2.2.2 - b.2.1)
    match st.1 with
    | none => (some area, angle, rotated)
    | some m => if area < m then (some area, angle, rotated) else st)
    (none, 0, poly)
  (best.2.2, best.2.1)

/-- `PageLayoutEngine.prepare_packing_inputs` (lines 256-269): sort the
shapes by descending area (Python's stable `sorted` with key `-area`),
rotate each to its minimal bounding box, grow it by half the inter-piece
margin, reduce collinear points and normalize. -/
def preparePackingInputs (N : NestKernel) (seamAllowances : List (ℕ × Poly))
    (config : LayoutConfig) : Except GeomErr (List (ℕ × Poly × ℤ)) :=
  let sortedItems := pySorted
    (fun a b => decide (areaRing b.2 < areaRing a.2)) seamAllowances
  sortedItems.foldr (fun item acc =>
    match acc with
    | .error e => .error e
    | .ok rest =>
      let (poly1, angle) := minimalBoundingBoxRotation N item.2
      let poly2 := N.bufferMitre poly1 (engineGrow config)
      match removeCollinearPoints poly2 with
      | .error e => .error e
      | .ok poly3 => .ok ((item.1, N.normalizePoly poly3, angle) :: rest))
    (.ok [])

/-- How the embedded nesting run can fail: the unplaceable-piece
`ValueError` of `_place_first`, carrying the one group index the message
names, or a propagated shapely error. -/
inductive LayoutErr where
  | unplaceable (idx : ℕ)
  | geom (e : GeomErr)
deriving DecidableEq, Repr

/-- `PageLayoutEngine._place_first` (lines 175-194): try the canonical
rotations 0°, 90°, 45°, 135°, translate the shape's bounds origin onto the
box's first exterior coordinate (its minimum corner, the box being
normalized) and accept the first rotation whose slightly eroded shape the
box contains.  `none` models the `ValueError` naming group `idx`. -/
def placeFirst (N : NestKernel) (box : Point × Point) (idx : ℕ) (poly : Poly)
    (angle : ℤ) : Option Placement :=
  go [0, 90, 45, 135]
where
  go : List ℤ → Option Placement
    | [] => none
    | ang :: rest =>
      let rotated := N.rotateNorm poly ang
      let b := boundsQuad rotated
      let dx := box.1.1 - b.1
      let dy := box.1.2 - b.2.1
      let rotatedT := translatePoly rotated dx dy
      if N.containsEroded box rotatedT then
        some ⟨idx, angle + ang, dx, dy, rotatedT⟩
      else go rest

/-- The per-page scan of `PageLayoutEngine.layout_groups` (lines 163-168):
append the placement to the first existing page that accepts the shape. -/
def tryPlaceOnPages (N : NestKernel) (idx : ℕ) (poly : Poly) (angle : ℤ) :
    List (List Placement) → Option (List (List Placement))
  | [] => none
  | page :: rest =>
    match N.placeNext idx poly angle page with
    | some pl => some ((page ++ [pl]) :: rest)
    | none => (tryPlaceOnPages N idx poly angle rest).map (page :: ·)

/-- The main loop of `PageLayoutEngine.layout_groups` (lines 151-173). -/
def layoutLoop (N : NestKernel) (box : Point × Point) :
    List (ℕ × Poly × ℤ) → List (List Placement) →
    Except LayoutErr (List (List Placement))
  | [], pages => .ok pages
  | (idx, poly, angle) :: rest, pages =>
    match tryPlaceOnPages N idx poly angle pages with
    | some pages' => layoutLoop N box rest pages'
    | none =>
      match placeFirst N box idx poly angle with
      | some pl => layoutLoop N box rest (pages ++ [[pl]])
      | none => .error (.unplaceable idx)

/-- `layout.layout_groups` (lines 272-276) /
`PageLayoutEngine.layout_groups`. -/
def layoutGroups (N : NestKernel) (seamAllowances : List (ℕ × Poly))
    (config : LayoutConfig) : Except LayoutErr (List (List Placement)) :=
  match preparePackingInputs N seamAllowances config with
  | .error e => .error (.geom e)
  | .ok toPack => layoutLoop N (engineBox config) toPack []

end SvgQuilter
namespace SvgQuilter

theorem rcpResult_sublist (tol : ℚ) (coords : List Point) :
    List.Sublist (rcpResult tol coords) coords := by
  have h1 := List.Sublist.map Prod.snd
    (List.filter_sublist (p := rcpKeep tol coords) coords.enum)
  rwa [List.enum_map_snd] at h1

theorem closed_coords_eq_openRing (ring : List Point) :
    (if (decide (1 < ring.length) && decide (ring.head? = ring.getLast?)) = true
      then ring.dropLast else ring) = openRing ring := by
  by_cases h : 1 < ring.length ∧ ring.head? = ring.getLast?
  · simp [openRing, h]
  · simp only [openRing, if_neg h]
    rw [if_neg]
    simp only [Bool.and_eq_true, decide_eq_true_eq]
    exact h

theorem mkPolygon_openRing_sublist {c q : List Point}
    (h : mkPolygon c = .ok q) : List.Sublist (openRing q) c := by
  match c with
  | [] =>
    simp only [mkPolygon, List.isEmpty_nil, if_true] at h
    cases h
    simp [openRing]
  | a :: t =>
    simp only [mkPolygon, List.isEmpty_cons, List.headD_cons] at h
    rw [if_neg (by simp)] at h
    by_cases hcl : (a :: t).getLast? = some a
    · rw [if_pos hcl] at h
      split at h
      · rename_i hlen
        cases h
        have hopen : openRing (a :: t) = (a :: t).dropLast := by
          rw [openRing, if_pos]
          exact ⟨by simp at hlen ⊢; omega, by simp [hcl]⟩
        rw [hopen]
        exact List.dropLast_sublist _
      · cases h
    · rw [if_neg hcl] at h
      split at h
      · cases h
        have hopen : openRing ((a :: t) ++ [a]) = a :: t := by
          rw [openRing, if_pos, List.dropLast_concat]
          refine ⟨by simp, by rw [List.getLast?_concat]; rfl⟩
        rw [hopen]
      · cases h

theorem mkPolygon_ok_closed {c q : List Point} (hne : c ≠ [])
    (hcl : c.head? = c.getLast?) (h : mkPolygon c = .ok q) :
    q = c ∧ openRing q = c.dropLast := by
  simp only [mkPolygon] at h
  rw [if_neg (by simpa using hne)] at h
  have ha : c.getLast? = some (c.headD (0, 0)) := by
    cases c with
    | nil => exact absurd rfl hne
    | cons x t => rw [← hcl]; rfl
  rw [if_pos ha] at h
  split at h
  · rename_i hlen
    cases h
    refine ⟨rfl, ?_⟩
    rw [openRing, if_pos]
    exact ⟨by omega, hcl⟩
  · cases h

theorem removeCollinearPoints_openRing_sublist {ring q : List Point} {tol : ℚ}
    (h : removeCollinearPoints ring tol = .ok q) :
    List.Sublist (openRing q) (openRing ring) := by
  simp only [removeCollinearPoints] at h
  rw [closed_coords_eq_openRing] at h
  split at h
  · exact mkPolygon_openRing_sublist h
  · by_cases hcl :
      (decide (1 < ring.length) && decide (ring.head? = ring.getLast?)) = true
    · rw [if_pos hcl] at h
      cases hres : rcpResult tol (openRing ring) with
      | nil => rw [hres] at h; cases h
      | cons r0 rs =>
        rw [hres] at h
        obtain ⟨-, hopen⟩ := mkPolygon_ok_closed (by simp)
          (by rw [List.getLast?_concat]; rfl) h
        rw [hopen, List.dropLast_concat, ← hres]
        exact rcpResult_sublist tol (openRing ring)
    · rw [if_neg hcl] at h
      exact (mkPolygon_openRing_sublist h).trans
        (rcpResult_sublist tol (openRing ring))

end SvgQuilter
namespace SvgQuilter

/-- C6 (amended): collinear-point reduction is not idempotent, but it is
monotone — applying `remove_collinear_points` twice (at the same tolerance)
yields a polygon whose vertex ring is a sublist of the once-reduced ring,
which itself is a sublist of the original ring; each pass can only delete
vertices, and a second pass may delete strictly more (see the
counterexample). -/
theorem remove_collinear_points_twice_sublist {p q r : List Point} {tol : ℚ}
    (h1 : removeCollinearPoints p tol = .ok q)
    (h2 : removeCollinearPoints q tol = .ok r) :
    List.Sublist (openRing r) (openRing q) ∧
      List.Sublist (openRing q) (openRing p) :=
  ⟨removeCollinearPoints_openRing_sublist h2,
    removeCollinearPoints_openRing_sublist h1⟩

/-- Witness for C6 (amended): a square with one extra collinear boundary
point, reduced twice at the default tolerance. -/
theorem remove_collinear_points_twice_sublist_witness :
    List.Sublist
      (openRing [((0:ℚ),(0:ℚ)), (2,0), (2,2), (0,2), (0,0)])
      (openRing [((0:ℚ),(0:ℚ)), (2,0), (2,2), (0,2), (0,0)]) ∧
    List.Sublist
      (openRing [((0:ℚ),(0:ℚ)), (2,0), (2,2), (0,2), (0,0)])
      (openRing [((0:ℚ),(0:ℚ)), (1,0), (2,0), (2,2), (0,2), (0,0)]) :=
  @remove_collinear_points_twice_sublist
    [((0:ℚ),(0:ℚ)), (1,0), (2,0), (2,2), (0,2), (0,0)]
    [((0:ℚ),(0:ℚ)), (2,0), (2,2), (0,2), (0,0)]
    [((0:ℚ),(0:ℚ)), (2,0), (2,2), (0,2), (0,0)]
    (1/100) (by with_unfolding_all decide) (by with_unfolding_all decide)

/-- Counterexample to C6 as stated: on this pentagon, one application of
`remove_collinear_points` at the default tolerance removes the vertex
`(1, 1)` (collinear with its neighbours), which makes `(-1/100, -9/1000)`
collinear with its new neighbours, so a second application removes it too:
applying the reduction twice does not yield the same polygon as applying it
once. -/
theorem remove_collinear_points_not_idempotent :
    removeCollinearPoints
        [((0:ℚ),(0:ℚ)), (1,1), (-1/100,-9/1000), (10,9), (0,20), (0,0)]
        (1/100) =
      .ok [((0:ℚ),(0:ℚ)), (-1/100,-9/1000), (10,9), (0,20), (0,0)] ∧
    removeCollinearPoints
        [((0:ℚ),(0:ℚ)), (-1/100,-9/1000), (10,9), (0,20), (0,0)] (1/100) =
      .ok [((0:ℚ),(0:ℚ)), (10,9), (0,20), (0,0)] ∧
    ([((0:ℚ),(0:ℚ)), (10,9), (0,20), (0,0)] : List Point) ≠
      [((0:ℚ),(0:ℚ)), (-1/100,-9/1000), (10,9), (0,20), (0,0)] := by
  refine ⟨by with_unfolding_all decide, by with_unfolding_all decide,
    by with_unfolding_all decide⟩

/-- C10: `remove_collinear_points` is not total — for every closed ring of
four or more vertices in which each vertex is collinear, within the
tolerance, with its two original neighbours, the filtering pass deletes every
vertex and the function raises `IndexError` at `result[0]` instead of
returning a polygon. -/
theorem remove_collinear_points_all_collinear_index_error
    (ring : List Point) (tol : ℚ) (h1 : 1 < ring.length)
    (h2 : ring.head? = ring.getLast?) (h4 : 4 ≤ ring.dropLast.length)
    (hall : ∀ i, i < ring.dropLast.length →
      rcpCollinear tol
        (ring.dropLast.getD
          ((i + ring.dropLast.length - 1) % ring.dropLast.length) (0, 0))
        (ring.dropLast.getD i (0, 0))
        (ring.dropLast.getD ((i + 1) % ring.dropLast.length) (0, 0)) = true) :
    removeCollinearPoints ring tol = .error .indexError := by
  have hb : (decide (1 < ring.length) &&
      decide (ring.head? = ring.getLast?)) = true := by simp [h1, h2]
  have hOpen : openRing ring = ring.dropLast := by
    rw [openRing, if_pos ⟨h1, h2⟩]
  simp only [removeCollinearPoints]
  rw [closed_coords_eq_openRing, hOpen, if_neg (by omega), if_pos hb]
  have hfil : (ring.dropLast.enum.filter (rcpKeep tol ring.dropLast)) = [] := by
    refine List.filter_eq_nil_iff.mpr ?_
    intro p hp
    have hpi := List.mem_enum_iff_getElem?.mp hp
    have hlt : p.1 < ring.dropLast.length := (List.getElem?_eq_some.mp hpi).1
    have hc := hall p.1 hlt
    simp only [rcpKeep, hc, Bool.not_true]
    exact Bool.false_ne_true
  have hres : rcpResult tol ring.dropLast = [] := by
    rw [rcpResult, hfil]
    rfl
  rw [hres]

/-- Witness for C10: a closed 4-vertex ring lying entirely on the x-axis. -/
theorem remove_collinear_points_all_collinear_witness :
    removeCollinearPoints [((0:ℚ),(0:ℚ)), (1,0), (2,0), (3,0), (0,0)]
      (1/100) = .error .indexError :=
  remove_collinear_points_all_collinear_index_error _ _
    (by with_unfolding_all decide) (by with_unfolding_all decide)
    (by with_unfolding_all decide) (by with_unfolding_all decide)

end SvgQuilter
namespace SvgQuilter

/-- C2 (code bug): `lines_to_polygons` discards no face by area — it has no
`min_area` parameter at all, although its own unit test calls
`lines_to_polygons(lines, min_area=0.1)` and expects the tiny triangle below
to be dropped.  The face ring of that triangle (area `1/20000 < 1/10`, and
only 3 vertices after closure-normalization) passes the only filter in the
code (`len(coords) < 4`) and is handed on to the output stage instead of
being discarded. -/
theorem lines_to_polygons_keeps_small_faces :
    linesToPolygonsFaces [[((0:ℚ), (0:ℚ)), (1/100, 0), (0, 1/100), (0, 0)]] =
      [[((0:ℚ), (0:ℚ)), (1/100, 0), (0, 1/100)]] ∧
    areaRing [((0:ℚ), (0:ℚ)), (1/100, 0), (0, 1/100), (0, 0)] < 1/10 ∧
    ([((0:ℚ), (0:ℚ)), (1/100, 0), (0, 1/100)] : List Point).length = 3 := by
  refine ⟨by with_unfolding_all decide, by with_unfolding_all decide, rfl⟩

/-- C5 (code bug): the printable area is not the page inset by the margin on
all four sides.  With the default configuration (8.5in x 11in page, 0.5in
margin, 96 units/in) the embedded `box(margin, margin, inner_width,
inner_height)` spans `(48, 48)` to `(720, 960)`, whereas the claim's
`margin .. page - margin` span would end at `(768, 1008)`: the code passes
the inner *dimensions* as the maximum coordinates, forcing a distance of
`2 * margin` (96 units), not `margin`, from the right and bottom page
edges. -/
theorem engine_box_not_margin_inset :
    engineBox { page_width_in := 17/2, page_height_in := 11 } =
      ((48, 48), (720, 960)) ∧
    ((17/2 : ℚ) * 96 - (1/2) * 96 = 768 ∧ (720 : ℚ) ≠ 768) ∧
    ((11 : ℚ) * 96 - (1/2) * 96 = 1008 ∧ (960 : ℚ) ≠ 1008) ∧
    ((17/2 : ℚ) * 96 - 720 = 2 * ((1/2) * 96)) := by
  refine ⟨by with_unfolding_all decide, ⟨by with_unfolding_all decide,
    by with_unfolding_all decide⟩, ⟨by with_unfolding_all decide,
    by with_unfolding_all decide⟩, by with_unfolding_all decide⟩

end SvgQuilter
namespace SvgQuilter

theorem classifyPass_mono {K : Kernel} {seams : List Seg} {m : ℕ → Option ℕ}
    {k i v : ℕ} (h : m i = some v) : classifyPass K seams m k i = some v := by
  simp [classifyPass, h]

theorem classifyPass_cases {K : Kernel} {seams : List Seg} {m : ℕ → Option ℕ}
    {k i v : ℕ} (h : classifyPass K seams m k i = some v) :
    m i = some v ∨
      (m i = none ∧ v = k ∧ i < seams.length ∧
        ((List.range seams.length).any (fun j =>
          decide (m j = some (k - 1)) &&
          K.segIntersects (seams.getD i ((0,0),(0,0)))
            (seams.getD j ((0,0),(0,0))))) = true) := by
  cases hm : m i with
  | some w =>
    have h2 := @classifyPass_mono K seams m k i w hm
    rw [h2] at h
    exact Or.inl h
  | none =>
    simp only [classifyPass, hm] at h
    split at h
    · rename_i hcond
      cases h
      exact Or.inr ⟨rfl, rfl, hcond.1, hcond.2⟩
    · cases h

theorem classifyPhase1_mono {K : Kernel} {seams : List Seg}
    {m : ℕ → Option ℕ} {i v : ℕ} (h : m i = some v) :
    classifyPhase1 K seams m i = some v := by
  simp [classifyPhase1, h]

theorem classifyPhase1_cases {K : Kernel} {seams : List Seg}
    {m : ℕ → Option ℕ} {i v : ℕ} (h : classifyPhase1 K seams m i = some v) :
    m i = some v ∨
      (m i = none ∧ v = 1 ∧ i < seams.length ∧
        crossEdgeCount K seams m (seams.getD i ((0,0),(0,0))) = 2) := by
  cases hm : m i with
  | some w =>
    have h2 := @classifyPhase1_mono K seams m i w hm
    rw [h2] at h
    exact Or.inl h
  | none =>
    simp only [classifyPhase1, hm] at h
    split at h
    · rename_i hcond
      cases h
      exact Or.inr ⟨rfl, rfl, hcond.1, hcond.2⟩
    · cases h

theorem classifyPhase0_cases {seams : List Seg} {bbox : Poly} {tol : ℚ}
    {i v : ℕ} (h : classifyPhase0 seams bbox tol i = some v) :
    v = 0 ∧ i < seams.length ∧
      seamIsCollinearWithBboxEdge (seams.getD i ((0,0),(0,0))) bbox tol
        = true := by
  simp only [classifyPhase0] at h
  split at h
  · rename_i hcond
    cases h
    exact ⟨rfl, hcond.1, hcond.2⟩
  · cases h

theorem classifyAux_rounds_le (K : Kernel) (seams : List Seg) :
    ∀ (fuel : ℕ) (m : ℕ → Option ℕ) (k r : ℕ), k ≤ 10 →
      (classifyAux K seams fuel m k r).2 ≤ r + (11 - k) := by
  intro fuel
  induction fuel with
  | zero => intro m k r hk; dsimp [classifyAux]; omega
  | succ fuel ih =>
    intro m k r hk
    rw [classifyAux]
    split
    · split
      · dsimp only
        omega
      · rename_i hk10
        dsimp only
        have := ih (classifyPass K seams m k) (k + 1) (r + 1) (by omega)
        omega
    · dsimp only
      omega

theorem classifyAux_values_le (K : Kernel) (seams : List Seg) :
    ∀ (fuel : ℕ) (m : ℕ → Option ℕ) (k r : ℕ), k ≤ 10 →
      (∀ i v, m i = some v → v ≤ 10) →
      ∀ i v, (classifyAux K seams fuel m k r).1 i = some v → v ≤ 10 := by
  intro fuel
  induction fuel with
  | zero => intro m k r hk hm i v h; exact hm i v h
  | succ fuel ih =>
    intro m k r hk hm i v h
    have hstep : ∀ i v, classifyPass K seams m k i = some v → v ≤ 10 := by
      intro i v hp
      rcases classifyPass_cases hp with hold | ⟨-, hv, -, -⟩
      · exact hm i v hold
      · omega
    rw [classifyAux] at h
    split at h
    · split at h
      · exact hstep i v h
      · exact ih (classifyPass K seams m k) (k + 1) (r + 1) (by omega) hstep i v h
    · exact hm i v h

/-- C8: `classify_seams` terminates on every input — its higher-order loop
executes at most 10 rounds (in fact at most 9, at orders 2 through 10), no
seam is ever assigned an order greater than 10, and a seam that is still
unclassified when the cap is reached is simply absent from the returned
mapping (`none`) rather than causing non-termination or an error. -/
theorem classify_seams_capped (K : Kernel) (seams : List Seg) (bbox : Poly)
    (tol : ℚ) :
    (classifySeamsWithRounds K seams bbox tol).2 ≤ 10 ∧
    ∀ i, classifySeams K seams bbox tol i = none ∨
      ∃ k, classifySeams K seams bbox tol i = some k ∧ k ≤ 10 := by
  constructor
  · have := classifyAux_rounds_le K seams 9
      (classifyPhase1 K seams (classifyPhase0 seams bbox tol)) 2 0 (by omega)
    rw [classifySeamsWithRounds]
    omega
  · intro i
    cases h : classifySeams K seams bbox tol i with
    | none => exact Or.inl rfl
    | some k =>
      refine Or.inr ⟨k, rfl, ?_⟩
      rw [classifySeams, classifySeamsWithRounds] at h
      refine classifyAux_values_le K seams 9 _ 2 0 (by omega) ?_ i k h
      intro j v hv
      rcases classifyPhase1_cases hv with h0 | ⟨-, hv1, -, -⟩
      · have := (classifyPhase0_cases h0).1
        omega
      · omega

end SvgQuilter
namespace SvgQuilter

/-- Point-on-segment test (for endpoints already known collinear), used by the
exact segment-intersection model. -/
def onSegQ (p q r : Point) : Bool :=
  decide (min p.1 q.1 ≤ r.1) && decide (r.1 ≤ max p.1 q.1) &&
  decide (min p.2 q.2 ≤ r.2) && decide (r.2 ≤ max p.2 q.2)

/-- Exact segment intersection over ℚ (orientation tests with collinear
touching cases), modelling shapely's `LineString.intersects` on 2-point
segments for concrete instantiations. -/
def segsIntersectQ (s1 s2 : Seg) : Bool :=
  let p1 := s1.1; let p2 := s1.2; let p3 := s2.1; let p4 := s2.2
  let d1 := cross2 p3 p4 p1
  let d2 := cross2 p3 p4 p2
  let d3 := cross2 p1 p2 p3
  let d4 := cross2 p1 p2 p4
  (((decide (0 < d1) && decide (d2 < 0)) || (decide (d1 < 0) && decide (0 < d2))) &&
   ((decide (0 < d3) && decide (d4 < 0)) || (decide (d3 < 0) && decide (0 < d4)))) ||
  (decide (d1 = 0) && onSegQ p3 p4 p1) ||
  (decide (d2 = 0) && onSegQ p3 p4 p2) ||
  (decide (d3 = 0) && onSegQ p1 p2 p3) ||
  (decide (d4 = 0) && onSegQ p1 p2 p4)

theorem classifyPass_zero_iff {K : Kernel} {seams : List Seg}
    {m : ℕ → Option ℕ} {k i : ℕ} (hk : k ≠ 0) :
    classifyPass K seams m k i = some 0 ↔ m i = some 0 := by
  constructor
  · intro h
    rcases classifyPass_cases h with hold | ⟨-, hv, -, -⟩
    · exact hold
    · exact absurd hv.symm hk
  · exact classifyPass_mono

theorem classifyPhase1_zero_iff {K : Kernel} {seams : List Seg}
    {m : ℕ → Option ℕ} {i : ℕ} :
    classifyPhase1 K seams m i = some 0 ↔ m i = some 0 := by
  constructor
  · intro h
    rcases classifyPhase1_cases h with hold | ⟨-, hv, -, -⟩
    · exact hold
    · exact absurd hv Nat.zero_ne_one
  · exact classifyPhase1_mono

theorem crossEdgeCount_congr {K : Kernel} {seams : List Seg}
    {m m' : ℕ → Option ℕ} (h : ∀ j, m j = some 0 ↔ m' j = some 0)
    (s : Seg) : crossEdgeCount K seams m s = crossEdgeCount K seams m' s := by
  rw [crossEdgeCount, crossEdgeCount]
  congr 1
  refine List.filter_congr ?_
  intro j _
  rw [decide_eq_decide.mpr (h j)]

/-- The invariant of `classify_seams`: order-0 seams are collinear with a
bounding-box edge, order-1 seams intersect exactly two order-0 seams, and
order-`k` seams (`k ≥ 2`) intersect some order-`(k-1)` seam. -/
def ClsInv (K : Kernel) (seams : List Seg) (bbox : Poly) (tol : ℚ)
    (m : ℕ → Option ℕ) : Prop :=
  ∀ i v, m i = some v →
    (v = 0 → seamIsCollinearWithBboxEdge (seams.getD i ((0,0),(0,0))) bbox tol
      = true) ∧
    (v = 1 → crossEdgeCount K seams m (seams.getD i ((0,0),(0,0))) = 2) ∧
    (2 ≤ v → ∃ j, m j = some (v - 1) ∧
      K.segIntersects (seams.getD i ((0,0),(0,0)))
        (seams.getD j ((0,0),(0,0))) = true)

theorem classifyPhase0_inv (K : Kernel) (seams : List Seg) (bbox : Poly)
    (tol : ℚ) : ClsInv K seams bbox tol (classifyPhase0 seams bbox tol) := by
  intro i v h
  obtain ⟨hv, -, hcol⟩ := classifyPhase0_cases h
  subst hv
  exact ⟨fun _ => hcol, fun h1 => absurd h1.symm Nat.one_ne_zero,
    fun h2 => absurd h2 (by omega)⟩

theorem classifyPhase1_inv {K : Kernel} {seams : List Seg} {bbox : Poly}
    {tol : ℚ} {m : ℕ → Option ℕ} (hinv : ClsInv K seams bbox tol m) :
    ClsInv K seams bbox tol (classifyPhase1 K seams m) := by
  intro i v h
  have hzero : ∀ j, m j = some 0 ↔ classifyPhase1 K seams m j = some 0 :=
    fun j => classifyPhase1_zero_iff.symm
  rcases classifyPhase1_cases h with hold | ⟨-, hv, -, hcount⟩
  · obtain ⟨c0, c1, c2⟩ := hinv i v hold
    refine ⟨c0, ?_, ?_⟩
    · intro hv1
      rw [← crossEdgeCount_congr hzero]
      exact c1 hv1
    · intro hv2
      obtain ⟨j, hj, hint⟩ := c2 hv2
      exact ⟨j, classifyPhase1_mono hj, hint⟩
  · subst hv
    refine ⟨fun h0 => absurd h0 Nat.one_ne_zero, ?_,
      fun h2 => absurd h2 (by omega)⟩
    intro _
    rw [← crossEdgeCount_congr hzero]
    exact hcount

theorem classifyPass_inv {K : Kernel} {seams : List Seg} {bbox : Poly}
    {tol : ℚ} {m : ℕ → Option ℕ} {k : ℕ} (hk : 2 ≤ k)
    (hinv : ClsInv K seams bbox tol m) :
    ClsInv K seams bbox tol (classifyPass K seams m k) := by
  intro i v h
  have hzero : ∀ j, m j = some 0 ↔ classifyPass K seams m k j = some 0 :=
    fun j => (classifyPass_zero_iff (by omega)).symm
  rcases classifyPass_cases h with hold | ⟨-, hv, -, hany⟩
  · obtain ⟨c0, c1, c2⟩ := hinv i v hold
    refine ⟨c0, ?_, ?_⟩
    · intro hv1
      rw [← crossEdgeCount_congr hzero]
      exact c1 hv1
    · intro hv2
      obtain ⟨j, hj, hint⟩ := c2 hv2
      exact ⟨j, classifyPass_mono hj, hint⟩
  · subst hv
    refine ⟨fun h0 => absurd h0 (by omega), fun h1 => absurd h1 (by omega), ?_⟩
    intro _
    rw [List.any_eq_true] at hany
    obtain ⟨j, -, hj⟩ := hany
    rw [Bool.and_eq_true, decide_eq_true_eq] at hj
    exact ⟨j, classifyPass_mono hj.1, hj.2⟩

theorem classifyAux_inv {K : Kernel} {seams : List Seg} {bbox : Poly}
    {tol : ℚ} : ∀ (fuel : ℕ) (m : ℕ → Option ℕ) (k r : ℕ), 2 ≤ k →
    ClsInv K seams bbox tol m →
    ClsInv K seams bbox tol (classifyAux K seams fuel m k r).1 := by
  intro fuel
  induction fuel with
  | zero => intro m k r _ hinv; exact hinv
  | succ fuel ih =>
    intro m k r hk hinv
    rw [classifyAux]
    split
    · split
      · exact classifyPass_inv hk hinv
      · exact ih (classifyPass K seams m k) (k + 1) (r + 1) (by omega)
          (classifyPass_inv hk hinv)
    · exact hinv

/-- C7: in the mapping returned by `classify_seams`, every seam of order 0 has
both endpoints collinear (within tolerance) with some bounding-box edge, every
seam of order 1 intersects exactly two seams of order 0, and every seam of
order `k ≥ 2` intersects at least one seam of order `k - 1`. -/
theorem classify_seams_order_invariants (K : Kernel) (seams : List Seg)
    (bbox : Poly) (tol : ℚ) (i k : ℕ)
    (h : classifySeams K seams bbox tol i = some k) :
    (k = 0 → seamIsCollinearWithBboxEdge (seams.getD i ((0,0),(0,0))) bbox tol
      = true) ∧
    (k = 1 → crossEdgeCount K seams (classifySeams K seams bbox tol)
      (seams.getD i ((0,0),(0,0))) = 2) ∧
    (2 ≤ k → ∃ j, classifySeams K seams bbox tol j = some (k - 1) ∧
      K.segIntersects (seams.getD i ((0,0),(0,0)))
        (seams.getD j ((0,0),(0,0))) = true) := by
  have hinv : ClsInv K seams bbox tol (classifySeams K seams bbox tol) := by
    rw [classifySeams, classifySeamsWithRounds]
    exact classifyAux_inv 9 _ 2 0 (by omega)
      (classifyPhase1_inv (classifyPhase0_inv K seams bbox tol))
  exact hinv i k h

end SvgQuilter
namespace SvgQuilter

/-- A concrete kernel instance for witnesses: exact rational segment
intersection and the monotone-chain convex hull. -/
def wKernel : Kernel where
  polyIntersects := fun _ _ => false
  segIntersects := segsIntersectQ
  union := fun a _ => a
  unionAll := fun l => l.headD []
  convexHull := convexHullQ

/-- The seams of spec example scenario 2: two bounding-box edges, one seam
crossing both, and one seam crossing that one. -/
def wSeams : List Seg :=
  [((0,0),(2,0)), ((0,2),(2,2)), ((1,-1/10),(1,21/10)), ((-1/10,1),(11/10,1))]

/-- The bounding box of the witness scenario. -/
def wBbox : Poly := [(0,0),(2,0),(2,2),(0,2),(0,0)]

/-- Witness for C7: in the scenario above, seam 3 is classified at order 2,
and the theorem yields an order-1 seam it intersects. -/
theorem classify_seams_order_invariants_witness :
    (2 = 0 → seamIsCollinearWithBboxEdge (wSeams.getD 3 ((0,0),(0,0))) wBbox
      (1/1000000) = true) ∧
    (2 = 1 → crossEdgeCount wKernel wSeams
      (classifySeams wKernel wSeams wBbox (1/1000000))
      (wSeams.getD 3 ((0,0),(0,0))) = 2) ∧
    (2 ≤ 2 → ∃ j, classifySeams wKernel wSeams wBbox (1/1000000) j
        = some (2 - 1) ∧
      wKernel.segIntersects (wSeams.getD 3 ((0,0),(0,0)))
        (wSeams.getD j ((0,0),(0,0))) = true) :=
  classify_seams_order_invariants wKernel wSeams wBbox (1/1000000) 3 2
    (by with_unfolding_all decide)

end SvgQuilter
namespace SvgQuilter

theorem areaRing_nonneg (r : List Point) : 0 ≤ areaRing r := by
  rw [areaRing]
  positivity

/-- A buffer instance for the C9 witness: it returns an axis-aligned
rectangle of area `areaRing p + d`, so it satisfies the kernel contract that
buffering outward by a positive distance strictly increases area. -/
def wBuffer (p : Poly) (d : ℚ) : Poly :=
  [(0, 0), (areaRing p + d, 0), (areaRing p + d, 1), (0, 1), (0, 0)]

theorem wBuffer_grows (p : Poly) (d : ℚ) (hd : 0 < d) :
    areaRing p < areaRing (wBuffer p d) := by
  have ha := areaRing_nonneg p
  have hsh : shoelace2 [((0:ℚ), (0:ℚ)), (areaRing p + d, 0),
      (areaRing p + d, 1), (0, 1), (0, 0)] = 2 * (areaRing p + d) := by
    simp [shoelace2]
    ring
  have key : areaRing (wBuffer p d) = |2 * (areaRing p + d)| / 2 := by
    rw [wBuffer, areaRing, hsh]
  rw [key, abs_of_nonneg (by linarith)]
  linarith

theorem seamAllowanceLoop_mem {K : Kernel} {buffer : Poly → ℚ → Poly}
    {polys : List Poly} {allowance : ℚ} :
    ∀ (gs : List (List ℕ)) (i : ℕ) (res : List (ℕ × Poly)),
    seamAllowanceLoop K buffer polys allowance i gs = .ok res →
    ∀ pr ∈ res, i ≤ pr.1 ∧ ∃ simple,
      removeCollinearPoints
        (K.convexHull (groupPolygonsToShape K polys (gs.getD (pr.1 - i) [])))
        (1/100) = .ok simple ∧
      pr.2 = buffer simple allowance := by
  intro gs
  induction gs with
  | nil =>
    intro i res h pr hpr
    rw [seamAllowanceLoop] at h
    cases h
    simp at hpr
  | cons g rest ih =>
    intro i res h pr hpr
    rw [seamAllowanceLoop] at h
    cases hcb : cleanAndBufferGroupShape K buffer
        (groupPolygonsToShape K polys g) allowance with
    | error e => rw [hcb] at h; cases h
    | ok s =>
      rw [hcb] at h
      cases htl : seamAllowanceLoop K buffer polys allowance (i + 1) rest with
      | error e => rw [htl] at h; cases h
      | ok tl =>
        rw [htl] at h
        cases h
        rcases List.mem_cons.mp hpr with hhd | hmem
        · subst hhd
          refine ⟨le_refl _, ?_⟩
          rw [cleanAndBufferGroupShape] at hcb
          cases hrc : removeCollinearPoints
              (K.convexHull (groupPolygonsToShape K polys g)) (1/100) with
          | error e => rw [hrc] at hcb; cases hcb
          | ok simple =>
            rw [hrc] at hcb
            cases hcb
            refine ⟨simple, ?_, rfl⟩
            simpa using hrc
        · obtain ⟨hge, simple, hrc, heq⟩ := ih (i + 1) tl htl pr hmem
          refine ⟨by omega, simple, ?_, heq⟩
          have hidx : (g :: rest).getD (pr.1 - i) [] =
              rest.getD (pr.1 - (i + 1)) [] := by
            have h1 : pr.1 - i = (pr.1 - (i + 1)) + 1 := by omega
            rw [h1]
            rfl
          rw [hidx]
          exact hrc

/-- C9 (amended): under the kernel contract that buffering outward by a
positive distance strictly increases area, the area of every seam-allowance
shape strictly exceeds the area of the shape that is actually buffered — the
collinear-reduced convex hull of the group union.  (It need not exceed the
area of the unbuffered union itself, because the collinear reduction can
shrink the hull first; see the counterexample.) -/
theorem seam_allowance_area_exceeds_reduced_hull
    (K : Kernel) (buffer : Poly → ℚ → Poly) (polys : List Poly)
    (groups : List (List ℕ)) (ainch units : ℚ) (result : List (ℕ × Poly))
    (hok : seamAllowancePolygons K buffer polys groups ainch units
      = .ok result)
    (hbuf : ∀ p d, 0 < d → areaRing p < areaRing (buffer p d))
    (hpos : 0 < ainch * units) :
    ∀ pr ∈ result, ∃ simple,
      removeCollinearPoints
        (K.convexHull (groupPolygonsToShape K polys (groups.getD pr.1 [])))
        (1/100) = .ok simple ∧ areaRing simple < areaRing pr.2 := by
  intro pr hpr
  rw [seamAllowancePolygons] at hok
  obtain ⟨-, simple, hrc, heq⟩ :=
    seamAllowanceLoop_mem groups 0 result hok pr hpr
  refine ⟨simple, by simpa using hrc, ?_⟩
  rw [heq]
  exact hbuf simple _ hpos

/-- Witness for C9 (amended): a single unit-square group buffered at the
default quarter-inch allowance at 96 units per inch. -/
theorem seam_allowance_area_exceeds_reduced_hull_witness :
    ∃ simple,
      removeCollinearPoints
        (wKernel.convexHull (groupPolygonsToShape wKernel
          [[(0,0),(1,0),(1,1),(0,1),(0,0)]] ([[0]].getD 0 [])))
        (1/100) = .ok simple ∧
      areaRing simple <
        areaRing [((0:ℚ), (0:ℚ)), (25, 0), (25, 1), (0, 1), (0, 0)] := by
  have h := seam_allowance_area_exceeds_reduced_hull wKernel wBuffer
    [[(0,0),(1,0),(1,1),(0,1),(0,0)]] [[0]] (1/4) 96
    [(0, [(0, 0), (25, 0), (25, 1), (0, 1), (0, 0)])]
    (by with_unfolding_all decide) wBuffer_grows
    (by with_unfolding_all decide)
    (0, [(0, 0), (25, 0), (25, 1), (0, 1), (0, 0)]) (by simp)
  simpa using h

/-- The polygon of the C9 counterexample: a convex pentagon that is a
`1/7 x 1/7` axis-aligned square with one extra vertex `(1/14, 1/20)` bulging
so slightly (cross product `1/140 < 1/100`) that the collinear reduction
deletes it, losing area `1/280`. -/
def cxPoly : Poly := [(0,0),(1/14,1/20),(1/7,0),(1/7,-1/7),(0,-1/7),(0,0)]

/-- The outward mitre-join buffer of an axis-aligned rectangle: the bounding
box grown by `d` on every side.  On the rectangle the counterexample feeds
it, this is exactly shapely's `buffer(d, join_style=2)`. -/
def rectBufferAxis (p : Poly) (d : ℚ) : Poly :=
  let b := boundsQuad p
  [(b.1 - d, b.2.1 - d), (b.2.2.1 + d, b.2.1 - d),
   (b.2.2.1 + d, b.2.2.2 + d), (b.1 - d, b.2.2.2 + d), (b.1 - d, b.2.1 - d)]

/-- Counterexample to C9 as stated: for the single-polygon group `cxPoly`
(nonempty member set) and the strictly positive allowance `1/200`, the
seam-allowance pipeline first deletes the bulge vertex as collinear — losing
area `1/280` — and then buffers outward by only `1/200`, so the buffered
shape's area `11449/490000` is strictly below the unbuffered union area
`47/1960 = 11750/490000`: the buffered area does not exceed the unbuffered
union area for every positive allowance. -/
theorem seam_allowance_not_monotone_for_small_allowance :
    0 < (1/200 : ℚ) * 1 ∧
    seamAllowancePolygons wKernel rectBufferAxis [cxPoly] [[0]]
        (1/200) 1 =
      .ok [(0, [((-1 : ℚ)/200, (-207 : ℚ)/1400), (207/1400, -207/1400),
        (207/1400, 1/200), (-1/200, 1/200), (-1/200, -207/1400)])] ∧
    areaRing [((-1 : ℚ)/200, (-207 : ℚ)/1400), (207/1400, -207/1400),
        (207/1400, 1/200), (-1/200, 1/200), (-1/200, -207/1400)] <
      areaRing (groupPolygonsToShape wKernel [cxPoly] [0]) := by
  refine ⟨by with_unfolding_all decide, by with_unfolding_all decide,
    by with_unfolding_all decide⟩

end SvgQuilter
namespace SvgQuilter

theorem scanCandidates_spec {K : Kernel} {polys : List Poly} {tol : ℚ}
    {cur : Poly} : ∀ {cands : List ℕ} {c : ℕ} {merged : Poly},
    scanCandidates K polys tol cur cands = some (c, merged) →
    c ∈ cands ∧ merged = K.union cur (polys.getD c []) ∧
      isConcave K.convexHull merged (1/100) = false ∧
      findExactFullSharedEdge (polys.getD c []) cur tol = true := by
  intro cands
  induction cands with
  | nil => intro c merged h; cases h
  | cons c0 rest ih =>
    intro c merged h
    simp only [scanCandidates] at h
    split at h
    · rename_i hshared
      split at h
      · rename_i hconc
        obtain ⟨hc, hm, hcv, hsh⟩ := ih h
        exact ⟨List.mem_cons_of_mem _ hc, hm, hcv, hsh⟩
      · rename_i hconc
        cases h
        refine ⟨List.mem_cons_self _ _, rfl, ?_, hshared⟩
        simpa using hconc
    · rename_i hshared
      obtain ⟨hc, hm, hcv, hsh⟩ := ih h
      exact ⟨List.mem_cons_of_mem _ hc, hm, hcv, hsh⟩

theorem collectInner_spec (grouped : Finset ℕ) (P : ℕ → Prop) :
    ∀ (l : List ℕ), (∀ x ∈ l, x ∉ grouped → P x) →
    ∀ (acc : List ℕ), (∀ c ∈ acc, P c) →
    ∀ c ∈ l.foldl (fun acc2 nb =>
      if nb ∉ grouped ∧ nb ∉ acc2 then acc2 ++ [nb] else acc2) acc, P c := by
  intro l
  induction l with
  | nil => intro _ acc hacc c hc; exact hacc c hc
  | cons x rest ih =>
    intro hl acc hacc c hc
    rw [List.foldl_cons] at hc
    refine ih (fun y hy => hl y (List.mem_cons_of_mem _ hy)) _ ?_ c hc
    intro d hd
    split at hd
    · rename_i hcond
      rcases List.mem_append.mp hd with hin | hnew
      · exact hacc d hin
      · have hdx : d = x := by simpa using hnew
        subst hdx
        exact hl d (List.mem_cons_self _ _) hcond.1
    · exact hacc d hd

theorem collectCandidates_spec {adjacency : ℕ → List ℕ} {gi : List ℕ}
    {grouped : Finset ℕ} {c : ℕ}
    (hc : c ∈ collectCandidates adjacency gi grouped) :
    c ∉ grouped ∧ ∃ i ∈ gi, c ∈ adjacency i := by
  rw [collectCandidates] at hc
  revert hc
  have main : ∀ (l : List ℕ), (∀ i ∈ l, i ∈ gi) → ∀ (acc : List ℕ),
      (∀ d ∈ acc, d ∉ grouped ∧ ∃ i ∈ gi, d ∈ adjacency i) →
      ∀ d ∈ l.foldl (fun acc idx =>
        (adjacency idx).foldl (fun acc2 nb =>
          if nb ∉ grouped ∧ nb ∉ acc2 then acc2 ++ [nb] else acc2) acc) acc,
      d ∉ grouped ∧ ∃ i ∈ gi, d ∈ adjacency i := by
    intro l
    induction l with
    | nil => intro _ acc hacc d hd; exact hacc d hd
    | cons idx rest ih =>
      intro hl acc hacc d hd
      rw [List.foldl_cons] at hd
      refine ih (fun i hi => hl i (List.mem_cons_of_mem _ hi)) _ ?_ d hd
      exact collectInner_spec grouped _ (adjacency idx)
        (fun x hx hxg => ⟨hxg, idx, hl idx (List.mem_cons_self _ _), hx⟩)
        acc hacc
  intro hc
  exact main gi (fun i hi => hi) [] (by simp) c hc

end SvgQuilter
namespace SvgQuilter

theorem growAux_spec {K : Kernel} {polys : List Poly}
    {adjacency : ℕ → List ℕ} {tol : ℚ} (already : Finset ℕ)
    (hadj : ∀ i c, c ∈ adjacency i → c < polys.length) :
    ∀ (fuel : ℕ) (gi : List ℕ) (grouped : Finset ℕ) (cur : Poly)
      (trace acc : List Poly) (res : GrowResult),
    growAux K polys adjacency tol fuel gi grouped cur trace acc = .ok res →
    gi.Nodup → (∀ j, j ∈ grouped ↔ j ∈ already ∨ j ∈ gi) →
    res.groupIdxs.Nodup ∧
    (∀ j ∈ res.groupIdxs,
      j ∈ gi ∨ (j < polys.length ∧ j ∉ already ∧ j ∉ gi)) ∧
    (∀ j ∈ gi, j ∈ res.groupIdxs) := by
  intro fuel
  induction fuel with
  | zero => intro gi grouped cur trace acc res h; cases h
  | succ fuel ih =>
    intro gi grouped cur trace acc res h hnd hgr
    rw [growAux] at h
    split at h
    · rename_i hscan
      cases h
      exact ⟨hnd, fun j hj => Or.inl hj, fun j hj => hj⟩
    · rename_i pr c merged hscan
      split at h
      · cases h
      · rename_i newShape hrc
        have hcand := (scanCandidates_spec hscan).1
        obtain ⟨hcg, i, higi, hcadj⟩ := collectCandidates_spec hcand
        have hcn : c < polys.length := hadj i c hcadj
        have hcnotA : c ∉ already := fun hA => hcg ((hgr c).mpr (Or.inl hA))
        have hcnotgi : c ∉ gi := fun hGi => hcg ((hgr c).mpr (Or.inr hGi))
        have hnd2 : (gi ++ [c]).Nodup := by
          rw [List.nodup_append]
          exact ⟨hnd, List.nodup_singleton c, by simpa using hcnotgi⟩
        have hgr2 : ∀ j, j ∈ insert c grouped ↔
            j ∈ already ∨ j ∈ gi ++ [c] := by
          intro j
          rw [Finset.mem_insert, hgr j, List.mem_append]
          simp only [List.mem_singleton]
          tauto
        obtain ⟨rnd, rmem, rsub⟩ := ih (gi ++ [c]) (insert c grouped) newShape
          (trace ++ [newShape]) (acc ++ [merged]) res h hnd2 hgr2
        refine ⟨rnd, ?_, ?_⟩
        · intro j hj
          rcases rmem j hj with hin | ⟨hjn, hjA, hjgi⟩
          · rcases List.mem_append.mp hin with h1 | h2
            · exact Or.inl h1
            · have hjc : j = c := by simpa using h2
              subst hjc
              exact Or.inr ⟨hcn, hcnotA, hcnotgi⟩
          · exact Or.inr ⟨hjn, hjA, fun hgi2 =>
              hjgi (List.mem_append.mpr (Or.inl hgi2))⟩
        · intro j hj
          exact rsub j (List.mem_append.mpr (Or.inl hj))

theorem growAux_no_out_of_fuel {K : Kernel} {polys : List Poly}
    {adjacency : ℕ → List ℕ} {tol : ℚ}
    (hadj : ∀ i c, c ∈ adjacency i → c < polys.length) :
    ∀ (fuel : ℕ) (gi : List ℕ) (grouped : Finset ℕ) (cur : Poly)
      (trace acc : List Poly),
    (Finset.range polys.length \ grouped).card < fuel →
    growAux K polys adjacency tol fuel gi grouped cur trace acc ≠
      .error .outOfFuel := by
  intro fuel
  induction fuel with
  | zero => intro gi grouped cur trace acc hm; omega
  | succ fuel ih =>
    intro gi grouped cur trace acc hm
    rw [growAux]
    split
    · simp
    · rename_i pr c merged hscan
      split
      · simp
      · rename_i newShape hrc
        have hcand := (scanCandidates_spec hscan).1
        obtain ⟨hcg, i, higi, hcadj⟩ := collectCandidates_spec hcand
        have hcn : c < polys.length := hadj i c hcadj
        have hcmem : c ∈ Finset.range polys.length \ grouped := by
          rw [Finset.mem_sdiff, Finset.mem_range]
          exact ⟨hcn, hcg⟩
        have hcard : (Finset.range polys.length \ insert c grouped).card <
            (Finset.range polys.length \ grouped).card := by
          rw [Finset.sdiff_insert]
          exact Finset.card_erase_lt_of_mem hcmem
        exact ih _ _ _ _ _ (by omega)

theorem growAux_no_empty_seq {K : Kernel} {polys : List Poly}
    {adjacency : ℕ → List ℕ} {tol : ℚ} :
    ∀ (fuel : ℕ) (gi : List ℕ) (grouped : Finset ℕ) (cur : Poly)
      (trace acc : List Poly),
    growAux K polys adjacency tol fuel gi grouped cur trace acc ≠
      .error .emptySeq := by
  intro fuel
  induction fuel with
  | zero => intro gi grouped cur trace acc; simp [growAux]
  | succ fuel ih =>
    intro gi grouped cur trace acc
    rw [growAux]
    split
    · simp
    · split
      · simp
      · exact ih _ _ _ _ _

end SvgQuilter
namespace SvgQuilter

theorem foldl_max_mem (x : ℤ) (xs : List ℤ) :
    xs.foldl max x = x ∨ xs.foldl max x ∈ xs := by
  induction xs generalizing x with
  | nil => exact Or.inl rfl
  | cons y ys ih =>
    rw [List.foldl_cons]
    rcases ih (max x y) with h | h
    · rcases max_choice x y with hm | hm
      · exact Or.inl (h.trans hm)
      · refine Or.inr ?_
        rw [h, hm]
        exact List.mem_cons_self _ _
    · exact Or.inr (List.mem_cons_of_mem _ h)

theorem pyMax_mem {l : List ℤ} {m : ℤ} (h : pyMax l = some m) : m ∈ l := by
  cases l with
  | nil => cases h
  | cons x xs =>
    rw [pyMax] at h
    cases h
    rcases foldl_max_mem x xs with h | h
    · rw [h]; exact List.mem_cons_self _ _
    · exact List.mem_cons_of_mem _ h

theorem foldl_minBy_mem {α} (key : α → ℚ) (x : α) (xs : List α) :
    xs.foldl (fun b y => if key y < key b then y else b) x = x ∨
      xs.foldl (fun b y => if key y < key b then y else b) x ∈ xs := by
  induction xs generalizing x with
  | nil => exact Or.inl rfl
  | cons y ys ih =>
    rw [List.foldl_cons]
    rcases ih (if key y < key x then y else x) with h | h
    · rw [h]
      split
      · exact Or.inr (List.mem_cons_self _ _)
      · exact Or.inl rfl
    · exact Or.inr (List.mem_cons_of_mem _ h)

theorem pyMinBy_mem {α} {key : α → ℚ} {l : List α} {a : α}
    (h : pyMinBy key l = some a) : a ∈ l := by
  cases l with
  | nil => cases h
  | cons x xs =>
    rw [pyMinBy] at h
    cases h
    rcases foldl_minBy_mem key x xs with h | h
    · rw [h]; exact List.mem_cons_self _ _
    · exact List.mem_cons_of_mem _ h

end SvgQuilter
namespace SvgQuilter

theorem pyMax_none {l : List ℤ} (h : pyMax l = none) : l = [] := by
  cases l with
  | nil => rfl
  | cons x xs => cases h

theorem pyMinBy_none {α} {key : α → ℚ} {l : List α}
    (h : pyMinBy key l = none) : l = [] := by
  cases l with
  | nil => rfl
  | cons x xs => cases h

theorem buildPolygonAdjacency_lt {K : Kernel} {polys : List Poly} {i c : ℕ}
    (h : c ∈ buildPolygonAdjacency K polys i) : c < polys.length := by
  rw [buildPolygonAdjacency] at h
  exact List.mem_range.mp (List.mem_of_mem_filter h)

theorem groupLoop_spec {K : Kernel} {polys : List Poly}
    {adjacency : ℕ → List ℕ} {orders : List ℤ}
    (hadj : ∀ i c, c ∈ adjacency i → c < polys.length) :
    ∀ (fuel : ℕ) (A : Finset ℕ) (gs : List (List ℕ)) (res : List (List ℕ)),
    groupLoop K polys adjacency orders fuel A gs = .ok res →
    gs.flatten.Nodup → (∀ j, j ∈ A ↔ j ∈ gs.flatten) →
    (∀ j ∈ A, j < polys.length) →
    res.flatten.Nodup ∧ ∀ j, j ∈ res.flatten ↔ j < polys.length := by
  intro fuel
  induction fuel with
  | zero => intro A gs res h; cases h
  | succ fuel ih =>
    intro A gs res h hnd hA hAn
    simp only [groupLoop] at h
    split at h
    · rename_i hcard
      split at h
      · cases h
      · rename_i highest hmax
        split at h
        · cases h
        · rename_i seed hmin
          split at h
          · cases h
          · rename_i gres hgrow
            have hseedc := pyMinBy_mem hmin
            have hseedin := List.mem_of_mem_filter hseedc
            rw [List.mem_filter] at hseedin
            have hseedn : seed < polys.length :=
              List.mem_range.mp hseedin.1
            have hseedA : seed ∉ A := by
              have := hseedin.2
              simpa using this
            rw [growGroupFromSeed] at hgrow
            obtain ⟨gnd, gmem, gsub⟩ := growAux_spec A hadj _ _ _ _ _ _ _
              hgrow (List.nodup_singleton seed)
              (fun j => by
                rw [Finset.mem_insert]
                simp only [List.mem_singleton]
                tauto)
            have hgseed : seed ∈ gres.groupIdxs :=
              gsub seed (List.mem_singleton.mpr rfl)
            have hgmem : ∀ j ∈ gres.groupIdxs,
                j < polys.length ∧ (j = seed ∨ j ∉ A) := by
              intro j hj
              rcases gmem j hj with hj1 | ⟨hjn, hjA, -⟩
              · have : j = seed := List.mem_singleton.mp hj1
                subst this
                exact ⟨hseedn, Or.inl rfl⟩
              · exact ⟨hjn, Or.inr hjA⟩
            have hjoin2 : (gs ++ [gres.groupIdxs]).flatten =
                gs.flatten ++ gres.groupIdxs := by
              simp
            refine ih _ _ res h ?_ ?_ ?_
            · rw [hjoin2, List.nodup_append]
              refine ⟨hnd, gnd, ?_⟩
              intro a ha hb
              have haA : a ∈ A := (hA a).mpr ha
              rcases (hgmem a hb).2 with h1 | h1
              · subst h1; exact hseedA haA
              · exact h1 haA
            · intro j
              rw [hjoin2, List.mem_append, Finset.mem_union,
                List.mem_toFinset, hA j]
            · intro j hj
              rcases Finset.mem_union.mp hj with h1 | h1
              · exact hAn j h1
              · exact (hgmem j (List.mem_toFinset.mp h1)).1
    · rename_i hcard
      cases h
      have hsub : A ⊆ Finset.range polys.length := by
        intro j hj
        exact Finset.mem_range.mpr (hAn j hj)
      have hAeq : A = Finset.range polys.length :=
        Finset.eq_of_subset_of_card_le hsub
          (by rw [Finset.card_range]; omega)
      refine ⟨hnd, ?_⟩
      intro j
      rw [← hA j, hAeq, Finset.mem_range]

end SvgQuilter
namespace SvgQuilter

theorem groupLoop_no_bad {K : Kernel} {polys : List Poly}
    {adjacency : ℕ → List ℕ} {orders : List ℤ}
    (hadj : ∀ i c, c ∈ adjacency i → c < polys.length) :
    ∀ (fuel : ℕ) (A : Finset ℕ) (gs : List (List ℕ)),
    (∀ j ∈ A, j < polys.length) →
    polys.length - A.card < fuel →
    groupLoop K polys adjacency orders fuel A gs ≠ .error .outOfFuel ∧
    groupLoop K polys adjacency orders fuel A gs ≠ .error .emptySeq := by
  intro fuel
  induction fuel with
  | zero => intro A gs hAn hm; omega
  | succ fuel ih =>
    intro A gs hAn hm
    simp only [groupLoop]
    split
    · rename_i hcard
      have hex : ∃ j, j < polys.length ∧ j ∉ A := by
        by_contra hno
        push_neg at hno
        have hsub : Finset.range polys.length ⊆ A := by
          intro j hj
          exact hno j (Finset.mem_range.mp hj)
        have := Finset.card_le_card hsub
        rw [Finset.card_range] at this
        omega
      obtain ⟨j0, hj0n, hj0A⟩ := hex
      have hj0c : j0 ∈ (List.range polys.length).filter
          (fun i => decide (i ∉ A)) := by
        rw [List.mem_filter]
        exact ⟨List.mem_range.mpr hj0n, by simpa using hj0A⟩
      split
      · rename_i hmax
        have := pyMax_none hmax
        rw [List.map_eq_nil_iff] at this
        rw [this] at hj0c
        cases hj0c
      · rename_i highest hmax
        split
        · rename_i hmin
          have hmem := pyMax_mem (by
            exact hmax)
          rw [List.mem_map] at hmem
          obtain ⟨c, hc, hceq⟩ := hmem
          have : c ∈ (((List.range polys.length).filter
              (fun i => decide (i ∉ A))).filter
              (fun i => decide (orders.getD i (-1) = highest))) := by
            rw [List.mem_filter]
            exact ⟨hc, by simpa using hceq⟩
          rw [pyMinBy_none hmin] at this
          cases this
        · rename_i seed hmin
          split
          · rename_i e hgrow
            have hg1 : growGroupFromSeed K seed polys adjacency A (1/100) ≠
                .error .outOfFuel := by
              rw [growGroupFromSeed]
              refine growAux_no_out_of_fuel hadj _ _ _ _ _ _ ?_
              have : (Finset.range polys.length \ insert seed A) ⊆
                  Finset.range polys.length := Finset.sdiff_subset
              have hle := Finset.card_le_card this
              rw [Finset.card_range] at hle
              omega
            have hg2 : growGroupFromSeed K seed polys adjacency A (1/100) ≠
                .error .emptySeq := by
              rw [growGroupFromSeed]
              exact growAux_no_empty_seq _ _ _ _ _ _
            cases e with
            | geom e2 => exact ⟨by simp, by simp⟩
            | outOfFuel => exact absurd hgrow hg1
            | emptySeq => exact absurd hgrow hg2
          · rename_i gres hgrow
            have hseedc := pyMinBy_mem hmin
            have hseedin := List.mem_of_mem_filter hseedc
            rw [List.mem_filter] at hseedin
            have hseedn : seed < polys.length := List.mem_range.mp hseedin.1
            have hseedA : seed ∉ A := by
              have := hseedin.2
              simpa using this
            rw [growGroupFromSeed] at hgrow
            obtain ⟨gnd, gmem, gsub⟩ := growAux_spec A hadj _ _ _ _ _ _ _
              hgrow (List.nodup_singleton seed)
              (fun j => by
                rw [Finset.mem_insert]
                simp only [List.mem_singleton]
                tauto)
            have hgseed : seed ∈ gres.groupIdxs :=
              gsub seed (List.mem_singleton.mpr rfl)
            have hsub2 : insert seed A ⊆ A ∪ gres.groupIdxs.toFinset := by
              intro j hj
              rcases Finset.mem_insert.mp hj with h1 | h1
              · subst h1
                exact Finset.mem_union.mpr
                  (Or.inr (List.mem_toFinset.mpr hgseed))
              · exact Finset.mem_union.mpr (Or.inl h1)
            have hcard2 : A.card + 1 ≤ (A ∪ gres.groupIdxs.toFinset).card := by
              have h1 := Finset.card_le_card hsub2
              rw [Finset.card_insert_of_not_mem hseedA] at h1
              omega
            refine ih _ _ ?_ (by omega)
            intro j hj
            rcases Finset.mem_union.mp hj with h1 | h1
            · exact hAn j h1
            · rcases gmem j (List.mem_toFinset.mp h1) with h2 | h2
              · have : j = seed := List.mem_singleton.mp h2
                subst this
                exact hseedn
              · exact h2.1
    · exact ⟨by simp, by simp⟩

/-- C1 (amended): `group_polygons` either raises a propagated
`remove_collinear_points` exception (see the counterexample and C10), or
returns groups whose concatenated index lists contain every polygon index
exactly once — the flattened group list is duplicate-free and is a
permutation of `range (len polygons))`.  The model's artificial failure
modes (fuel exhaustion, `max`/`min` on an empty sequence) never occur. -/
theorem group_polygons_partition (K : Kernel) (polys : List Poly)
    (lines : List Seg) :
    groupPolygons K polys lines ≠ .error .outOfFuel ∧
    groupPolygons K polys lines ≠ .error .emptySeq ∧
    ∀ groups, groupPolygons K polys lines = .ok groups →
      groups.flatten.Nodup ∧ (∀ j, j ∈ groups.flatten ↔ j < polys.length) ∧
      groups.flatten.Perm (List.range polys.length) := by
  have hadj : ∀ i c, c ∈ buildPolygonAdjacency K polys i →
      c < polys.length := fun i c h => buildPolygonAdjacency_lt h
  refine ⟨?_, ?_, ?_⟩
  · rw [groupPolygons]
    exact (groupLoop_no_bad hadj _ ∅ [] (by simp) (by simp)).1
  · rw [groupPolygons]
    exact (groupLoop_no_bad hadj _ ∅ [] (by simp) (by simp)).2
  · intro groups h
    rw [groupPolygons] at h
    obtain ⟨hnd, hmem⟩ := groupLoop_spec hadj _ ∅ [] groups h
      (by simp) (by simp) (by simp)
    refine ⟨hnd, hmem, ?_⟩
    refine (List.perm_ext_iff_of_nodup hnd (List.nodup_range _)).mpr ?_
    intro j
    rw [hmem j, List.mem_range]

/-- Witness for C1 (amended): a single unit square forms the single group
`[[0]]`, whose flattened indices are a permutation of `range 1`. -/
theorem group_polygons_partition_witness :
    ([[0]] : List (List ℕ)).flatten.Nodup ∧
    (∀ j, j ∈ ([[0]] : List (List ℕ)).flatten ↔ j < 1) ∧
    ([[0]] : List (List ℕ)).flatten.Perm (List.range 1) := by
  have h := (group_polygons_partition wKernel
    [[(0,0),(1,0),(1,1),(0,1),(0,0)]] []).2.2 [[0]]
    (by with_unfolding_all decide)
  simpa using h

end SvgQuilter
namespace SvgQuilter

/-- The two polygons of the C1/C3-family counterexample input: a tiny
`1/20 x 1/20` square split along its diagonal into two right triangles that
share exactly that diagonal edge. -/
def t1 : Poly := [(0,0),(1/20,0),(0,1/20),(0,0)]

/-- The second triangle of the tiny split square. -/
def t2 : Poly := [(1/20,0),(1/20,1/20),(0,1/20),(1/20,0)]

/-- The kernel instance of the C1 counterexample: the triangles touch
(`intersects` is true), their union is the tiny square, and the hull is the
exact monotone-chain hull. -/
def cK : Kernel where
  polyIntersects := fun _ _ => true
  segIntersects := segsIntersectQ
  union := fun _ _ => [(0,0),(1/20,0),(1/20,1/20),(0,1/20),(0,0)]
  unionAll := fun l => l.headD []
  convexHull := convexHullQ

/-- Counterexample to C1 as stated: `group_polygons` does not return a group
list for every input.  On the two tiny triangles `t1, t2` (no seam lines),
the grower merges them into the `1/20`-sided square, whose four hull-corner
cross products `1/400` all fall below the `1e-2` collinearity tolerance, so
`remove_collinear_points` deletes every vertex and raises `IndexError`
(grouping.py line 133 via utils.py line 221) instead of returning groups. -/
theorem group_polygons_can_raise :
    groupPolygons cK [t1, t2] [] = .error (.geom .indexError) := by
  with_unfolding_all decide

end SvgQuilter
namespace SvgQuilter

theorem growAux_trace {K : Kernel} {polys : List Poly}
    {adjacency : ℕ → List ℕ} {tol : ℚ} :
    ∀ (fuel : ℕ) (gi : List ℕ) (grouped : Finset ℕ) (cur : Poly)
      (trace acc : List Poly) (res : GrowResult),
    growAux K polys adjacency tol fuel gi grouped cur trace acc = .ok res →
    trace ≠ [] →
    (∀ u ∈ acc, isConcave K.convexHull u (1/100) = false) →
    (∀ s ∈ trace.tail, ∃ u ∈ acc,
      removeCollinearPoints (K.convexHull u) (1/100) = .ok s) →
    res.trace.head? = trace.head? ∧
    (∀ u ∈ res.accepted, isConcave K.convexHull u (1/100) = false) ∧
    (∀ s ∈ res.trace.tail, ∃ u ∈ res.accepted,
      removeCollinearPoints (K.convexHull u) (1/100) = .ok s) := by
  intro fuel
  induction fuel with
  | zero => intro gi grouped cur trace acc res h; cases h
  | succ fuel ih =>
    intro gi grouped cur trace acc res h htne hacc htr
    rw [growAux] at h
    split at h
    · cases h
      exact ⟨rfl, hacc, htr⟩
    · rename_i pr c merged hscan
      split at h
      · cases h
      · rename_i newShape hrc
        obtain ⟨-, -, hconc, -⟩ := scanCandidates_spec hscan
        obtain ⟨t0, ts, rfl⟩ := List.exists_cons_of_ne_nil htne
        have h1 := ih _ _ _ _ _ _ h (by simp) ?_ ?_
        · refine ⟨?_, h1.2.1, h1.2.2⟩
          rw [h1.1]
          simp
        · intro u hu
          rcases List.mem_append.mp hu with h2 | h2
          · exact hacc u h2
          · have : u = merged := by simpa using h2
            subst this
            exact hconc
        · intro s hs
          have hs2 : s ∈ ts ++ [newShape] := by
            simpa using hs
          rcases List.mem_append.mp hs2 with h2 | h2
          · obtain ⟨u, hu, hru⟩ := htr s (by simpa using h2)
            exact ⟨u, List.mem_append.mpr (Or.inl hu), hru⟩
          · have : s = newShape := by simpa using h2
            subst this
            exact ⟨merged, List.mem_append.mpr (Or.inr (by simp)), hrc⟩

/-- C3 (amended): during `grow_group_from_seed`, `current_shape` starts as
the seed polygon — which is *not* checked for convexity and may be concave
(see the counterexample) — and every later value is
`remove_collinear_points` of the convex hull of an accepted union, where
every accepted union passes the non-concavity test (its convex-hull area
exceeds its own area by at most the ratio tolerance `1e-2`). -/
theorem grow_group_current_shape_trace (K : Kernel) (seedIdx : ℕ)
    (polygons : List Poly) (adjacency : ℕ → List ℕ) (already : Finset ℕ)
    (tol : ℚ) (res : GrowResult)
    (h : growGroupFromSeed K seedIdx polygons adjacency already tol
      = .ok res) :
    res.trace.head? = some (polygons.getD seedIdx []) ∧
    (∀ u ∈ res.accepted, isConcave K.convexHull u (1/100) = false) ∧
    (∀ s ∈ res.trace.tail, ∃ u ∈ res.accepted,
      removeCollinearPoints (K.convexHull u) (1/100) = .ok s) := by
  rw [growGroupFromSeed] at h
  have h1 := growAux_trace _ _ _ _ _ _ _ h (by simp) (by simp) (by simp)
  exact ⟨by rw [h1.1]; rfl, h1.2.1, h1.2.2⟩

/-- The concave L-shaped hexagon of the C3 counterexample (area 3, convex
hull area 7/2). -/
def Lring : Poly := [(0,0),(2,0),(2,1),(1,1),(1,2),(0,2),(0,0)]

/-- Counterexample to C3 as stated: growing from the L-shaped seed `Lring`
(alone, with no neighbours), `current_shape` only ever holds the seed
polygon itself, and that seed is concave — its convex-hull area `7/2`
exceeds its area `3` by ratio `1/6 > 1e-2`.  Not every value of
`current_shape` is convex: the initial seed is never checked. -/
theorem grow_group_seed_can_be_concave :
    growGroupFromSeed wKernel 0 [Lring]
        (buildPolygonAdjacency wKernel [Lring]) ∅ (1/100) =
      .ok ⟨[0], Lring, [Lring], []⟩ ∧
    isConcave wKernel.convexHull Lring (1/100) = true := by
  refine ⟨by with_unfolding_all decide, by with_unfolding_all decide⟩

/-- The kernel of the C3 witness: real hull/segment ops, adjacent polygons,
and a union that maps the two unit squares of the witness to their exact
union rectangle. -/
def aK : Kernel where
  polyIntersects := fun _ _ => true
  segIntersects := segsIntersectQ
  union := fun _ _ => [(0,0),(2,0),(2,1),(0,1),(0,0)]
  unionAll := fun l => l.headD []
  convexHull := convexHullQ

/-- Witness for C3 (amended): two unit squares sharing one full edge merge
into the `2 x 1` rectangle, which passes the concavity check; the trace is
the seed square followed by the reduced hull of the accepted union. -/
theorem grow_group_current_shape_trace_witness :
    (GrowResult.mk [0, 1] [(0,0),(2,0),(2,1),(0,1),(0,0)]
        [[(0,0),(1,0),(1,1),(0,1),(0,0)], [(0,0),(2,0),(2,1),(0,1),(0,0)]]
        [[(0,0),(2,0),(2,1),(0,1),(0,0)]]).trace.head? =
      some ([[(0,0),(1,0),(1,1),(0,1),(0,0)],
        [(1,0),(2,0),(2,1),(1,1),(1,0)]].getD 0 []) ∧
    (∀ u ∈ (GrowResult.mk [0, 1] [(0,0),(2,0),(2,1),(0,1),(0,0)]
        [[(0,0),(1,0),(1,1),(0,1),(0,0)], [(0,0),(2,0),(2,1),(0,1),(0,0)]]
        [[(0,0),(2,0),(2,1),(0,1),(0,0)]]).accepted,
      isConcave aK.convexHull u (1/100) = false) ∧
    (∀ s ∈ (GrowResult.mk [0, 1] [(0,0),(2,0),(2,1),(0,1),(0,0)]
        [[(0,0),(1,0),(1,1),(0,1),(0,0)], [(0,0),(2,0),(2,1),(0,1),(0,0)]]
        [[(0,0),(2,0),(2,1),(0,1),(0,0)]]).trace.tail,
      ∃ u ∈ (GrowResult.mk [0, 1] [(0,0),(2,0),(2,1),(0,1),(0,0)]
        [[(0,0),(1,0),(1,1),(0,1),(0,0)], [(0,0),(2,0),(2,1),(0,1),(0,0)]]
        [[(0,0),(2,0),(2,1),(0,1),(0,0)]]).accepted,
      removeCollinearPoints (aK.convexHull u) (1/100) = .ok s) :=
  grow_group_current_shape_trace aK 0
    [[(0,0),(1,0),(1,1),(0,1),(0,0)], [(1,0),(2,0),(2,1),(1,1),(1,0)]]
    (buildPolygonAdjacency aK
      [[(0,0),(1,0),(1,1),(0,1),(0,0)], [(1,0),(2,0),(2,1),(1,1),(1,0)]])
    ∅ (1/100)
    (GrowResult.mk [0, 1] [(0,0),(2,0),(2,1),(0,1),(0,0)]
      [[(0,0),(1,0),(1,1),(0,1),(0,0)], [(0,0),(2,0),(2,1),(0,1),(0,0)]]
      [[(0,0),(2,0),(2,1),(0,1),(0,0)]])
    (by with_unfolding_all decide)

end SvgQuilter
namespace SvgQuilter

theorem sortInsert_perm {α} (lt : α → α → Bool) (x : α) (l : List α) :
    (sortInsert lt x l).Perm (x :: l) := by
  induction l with
  | nil => exact List.Perm.refl _
  | cons y ys ih =>
    rw [sortInsert]
    split
    · exact (ih.cons y).trans (List.Perm.swap x y ys)
    · exact List.Perm.refl _

theorem pySorted_perm {α} (lt : α → α → Bool) (l : List α) :
    (pySorted lt l).Perm l := by
  induction l with
  | nil => exact List.Perm.refl _
  | cons a l ih => exact (sortInsert_perm lt a (pySorted lt l)).trans (ih.cons a)

theorem placeFirst_go_idx (N : NestKernel) (box : Point × Point) (idx : ℕ)
    (poly : Poly) (angle : ℤ) :
    ∀ (l : List ℤ) (pl : Placement),
    placeFirst.go N box idx poly angle l = some pl → pl.group_idx = idx := by
  intro l
  induction l with
  | nil => intro pl h; cases h
  | cons a rest ih =>
    intro pl h
    simp only [placeFirst.go] at h
    split at h
    · cases h; rfl
    · exact ih pl h

theorem placeFirst_idx {N : NestKernel} {box : Point × Point} {idx : ℕ}
    {poly : Poly} {angle : ℤ} {pl : Placement}
    (h : placeFirst N box idx poly angle = some pl) : pl.group_idx = idx := by
  rw [placeFirst] at h
  exact placeFirst_go_idx N box idx poly angle _ pl h

theorem tryPlaceOnPages_perm {N : NestKernel}
    (hN : ∀ idx poly angle page pl,
      N.placeNext idx poly angle page = some pl → pl.group_idx = idx) :
    ∀ (pages : List (List Placement)) {idx : ℕ} {poly : Poly} {angle : ℤ}
      {pages2 : List (List Placement)},
    tryPlaceOnPages N idx poly angle pages = some pages2 →
    (pages2.flatten.map Placement.group_idx).Perm
      (idx :: pages.flatten.map Placement.group_idx) := by
  intro pages
  induction pages with
  | nil => intro idx poly angle pages2 h; cases h
  | cons page rest ih =>
    intro idx poly angle pages2 h
    rw [tryPlaceOnPages] at h
    split at h
    · rename_i pl hpl
      cases h
      have hidx : pl.group_idx = idx := hN _ _ _ _ _ hpl
      simp only [List.flatten_cons, List.map_append, List.map_cons,
        List.map_nil, List.append_assoc, List.nil_append, hidx,
        List.singleton_append]
      exact List.perm_middle
    · rw [Option.map_eq_some'] at h
      obtain ⟨r, hr, rfl⟩ := h
      have h1 := ih hr
      simp only [List.flatten_cons, List.map_append]
      exact ((h1.append_left _).trans List.perm_middle)

theorem layoutLoop_perm {N : NestKernel} {box : Point × Point}
    (hN : ∀ idx poly angle page pl,
      N.placeNext idx poly angle page = some pl → pl.group_idx = idx) :
    ∀ (toPack : List (ℕ × Poly × ℤ)) (pages : List (List Placement)),
    (∀ res, layoutLoop N box toPack pages = .ok res →
      (res.flatten.map Placement.group_idx).Perm
        (toPack.map Prod.fst ++ pages.flatten.map Placement.group_idx)) ∧
    (∀ i, layoutLoop N box toPack pages = .error (.unplaceable i) →
      i ∈ toPack.map Prod.fst) := by
  intro toPack
  induction toPack with
  | nil =>
    intro pages
    constructor
    · intro res h
      simp only [layoutLoop] at h
      cases h
      simp
    · intro i h
      simp only [layoutLoop] at h
      cases h
  | cons item rest ih =>
    obtain ⟨idx, poly, angle⟩ := item
    intro pages
    constructor
    · intro res h
      rw [layoutLoop] at h
      split at h
      · rename_i pages2 hsome
        have h1 := (ih pages2).1 res h
        have h2 := tryPlaceOnPages_perm hN pages hsome
        simp only [List.map_cons]
        exact (h1.trans (h2.append_left _)).trans List.perm_middle
      · split at h
        · rename_i pl hpl
          have h1 := (ih (pages ++ [[pl]])).1 res h
          have hidx : pl.group_idx = idx := placeFirst_idx hpl
          simp only [List.flatten_append, List.flatten_cons, List.flatten_nil,
            List.map_append, List.map_cons, List.map_nil, List.append_nil,
            hidx] at h1
          simp only [List.map_cons]
          have h2 : (List.map Prod.fst rest ++
              (pages.flatten.map Placement.group_idx ++ [idx])).Perm
              (idx :: (List.map Prod.fst rest ++
                pages.flatten.map Placement.group_idx)) := by
            rw [← List.append_assoc]
            exact List.perm_append_singleton idx _
          exact h1.trans h2
        · exact Except.noConfusion h
    · intro i h
      rw [layoutLoop] at h
      split at h
      · exact List.mem_cons_of_mem _ ((ih _).2 i h)
      · split at h
        · exact List.mem_cons_of_mem _ ((ih _).2 i h)
        · rw [Except.error.injEq, LayoutErr.unplaceable.injEq] at h
          subst h
          exact List.mem_cons_self _ _

theorem preparePackingInputs_keys {N : NestKernel}
    {seamAllowances : List (ℕ × Poly)} {config : LayoutConfig}
    {toPack : List (ℕ × Poly × ℤ)}
    (h : preparePackingInputs N seamAllowances config = .ok toPack) :
    (toPack.map Prod.fst).Perm (seamAllowances.map Prod.fst) := by
  have key : ∀ (l : List (ℕ × Poly)) (out : List (ℕ × Poly × ℤ)),
      (l.foldr (fun (item : ℕ × Poly)
          (acc : Except GeomErr (List (ℕ × Poly × ℤ))) =>
        match acc with
        | .error e => .error e
        | .ok rest =>
          let (poly1, angle) := minimalBoundingBoxRotation N item.2
          let poly2 := N.bufferMitre poly1 (engineGrow config)
          match removeCollinearPoints poly2 with
          | .error e => .error e
          | .ok poly3 => .ok ((item.1, N.normalizePoly poly3, angle) :: rest))
        (.ok [])) = .ok out →
      out.map Prod.fst = l.map Prod.fst := by
    intro l
    induction l with
    | nil => intro out h0; cases h0; rfl
    | cons a l ih =>
      intro out h0
      simp only [List.foldr_cons] at h0
      split at h0
      · cases h0
      · rename_i rest hrest
        split at h0
        · cases h0
        · rename_i poly3 hpoly3
          cases h0
          simp [ih rest hrest]
  simp only [preparePackingInputs] at h
  have h1 := key _ _ h
  rw [h1]
  exact (pySorted_perm _ _).map Prod.fst

/-- C4 (amended): under the placement-engine contract that `_place_next`
always tags its placement with the queried group index, `layout_groups`
either returns pages in which the placed group indices are exactly the
input groups (each appearing exactly once, as a permutation of the input
keys), or fails with an error and returns no pages at all; when it fails
because a shape fits on no page, the `ValueError` names ONE unplaceable
group — the first one encountered, which is among the input keys — not
every unplaceable group (see the counterexample). -/
theorem layout_groups_all_or_error (N : NestKernel)
    (seamAllowances : List (ℕ × Poly)) (config : LayoutConfig)
    (hN : ∀ idx poly angle page pl,
      N.placeNext idx poly angle page = some pl → pl.group_idx = idx) :
    (∀ pages, layoutGroups N seamAllowances config = .ok pages →
      (pages.flatten.map Placement.group_idx).Perm
        (seamAllowances.map Prod.fst)) ∧
    (∀ i, layoutGroups N seamAllowances config = .error (.unplaceable i) →
      i ∈ seamAllowances.map Prod.fst) := by
  constructor
  · intro pages h
    rw [layoutGroups] at h
    split at h
    · cases h
    · rename_i toPack hprep
      have hkeys := preparePackingInputs_keys hprep
      have h1 := (layoutLoop_perm hN toPack []).1 pages h
      simp only [List.flatten_nil, List.map_nil, List.append_nil] at h1
      exact h1.trans hkeys
  · intro i h
    rw [layoutGroups] at h
    split at h
    · rename_i e heq
      injection h with h2
      cases h2
    · rename_i toPack hprep
      have hkeys := preparePackingInputs_keys hprep
      exact hkeys.mem_iff.mp ((layoutLoop_perm hN toPack []).2 i h)

/-- The unit square used in the C4 counterexample and witness. -/
def nsq : Poly := [(0,0),(1,0),(1,1),(0,1),(0,0)]

/-- Default-margins US-letter configuration for the C4 runs. -/
def nCfg : LayoutConfig := { page_width_in := 17/2, page_height_in := 11 }

/-- Nesting kernel for the C4 counterexample: nothing ever fits — the
containment test always fails and `_place_next` never finds a spot. -/
def nK : NestKernel where
  rotate := fun p _ => p
  rotateNorm := fun p _ => p
  normalizePoly := id
  bufferMitre := fun p _ => p
  containsEroded := fun _ _ => false
  placeNext := fun _ _ _ _ => none

/-- Counterexample to C4 as stated: with two unit-square groups, neither of
which can be placed (the containment test rejects everything, so
`_place_first` fails for both), `layout_groups` raises the `ValueError` of
`_place_first` naming ONLY group `0`; group `1` is equally unplaceable
(`_place_first` also returns nothing for it) yet is not listed.  The error
does not list every unplaceable group. -/
theorem layout_groups_error_names_single_group :
    layoutGroups nK [(0, nsq), (1, nsq)] nCfg = .error (.unplaceable 0) ∧
    placeFirst nK (engineBox nCfg) 1 nsq 0 = none := by
  refine ⟨by with_unfolding_all decide, by with_unfolding_all decide⟩

/-- Nesting kernel for the C4 witness: every first placement on a fresh
page is accepted. -/
def wN : NestKernel where
  rotate := fun p _ => p
  rotateNorm := fun p _ => p
  normalizePoly := id
  bufferMitre := fun p _ => p
  containsEroded := fun _ _ => true
  placeNext := fun _ _ _ _ => none

/-- Witness for C4 (amended): one unit-square group is placed as the sole
placement of a single page, and its group index is exactly the input key
list `[0]`. -/
theorem layout_groups_all_or_error_witness :
    ([[Placement.mk 0 0 48 48
        [(48,48),(49,48),(49,49),(48,49),(48,48)]]].flatten.map
      Placement.group_idx).Perm ([((0:ℕ), nsq)].map Prod.fst) :=
  (layout_groups_all_or_error wN [(0, nsq)] nCfg
      (fun _ _ _ _ _ h => nomatch h)).1
    [[Placement.mk 0 0 48 48 [(48,48),(49,48),(49,49),(48,49),(48,48)]]]
    (by with_unfolding_all decide)

end SvgQuilter
